import Mathlib

/-!
Verification development for the OCR invoice/receipt table-reconstruction
pipeline (receipt-parser.js / test.js).  Strings are modelled as `List Char`;
every JavaScript helper used by the pipeline core is translated into an
executable Lean function, and the behavioural claims about the pipeline are
settled as theorems below the definitions.

Modelling conventions:
* a JS string is a `List Char`; `null`/`undefined` string fields are `Option`;
* the JS whitespace class `\s` is `jsWs` (the ECMAScript WhiteSpace and
  LineTerminator code points);
* regex operations are translated one by one into recursive matchers; where a
  regex is deterministic after analysing its backtracking behaviour, the
  matcher implements the resulting deterministic algorithm and the analysis is
  recorded in a comment;
* JS numbers that the pipeline produces are integer-valued (`parseInt` of digit
  strings); they are modelled exactly (`Nat`/`Int`).  `Math.ceil(s * 0.1)` on
  an integer-valued double `s` equals the exact ceiling of `s/10` for every
  `|s| ≤ 2^53` (the double 0.1 equals 0.1·(1+2⁻⁵⁴), so the product lies within
  half an ulp of `s/10`); `calculateVAT` is therefore embedded with the exact
  ceiling.
-/

/-- ECMAScript `\s` (WhiteSpace ∪ LineTerminator): space, tab, LF, VT, FF, CR,
NBSP, U+1680, U+2000–U+200A, U+2028, U+2029, U+202F, U+205F, U+3000, U+FEFF. -/
def jsWs (c : Char) : Bool :=
  c = ' ' ∨ c = '\t' ∨ c = '\n' ∨ c = '\r' ∨ c.val = 11 ∨ c.val = 12 ∨
  c.val = 0xa0 ∨ c.val = 0x1680 ∨ (0x2000 ≤ c.val ∧ c.val ≤ 0x200a) ∨
  c.val = 0x2028 ∨ c.val = 0x2029 ∨ c.val = 0x202f ∨ c.val = 0x205f ∨
  c.val = 0x3000 ∨ c.val = 0xfeff

/-- ASCII digit, the ECMAScript `\d` class. -/
def isDigitChar (c : Char) : Bool := '0' ≤ c ∧ c ≤ '9'

/-- ECMAScript `\w`: ASCII letters, digits and underscore (used for `\b`). -/
def isWordChar (c : Char) : Bool :=
  ('a' ≤ c ∧ c ≤ 'z') ∨ ('A' ≤ c ∧ c ≤ 'Z') ∨ isDigitChar c ∨ c = '_'

/-- ASCII lower-casing, the effect of a case-insensitive (`/i`) regex on the
characters this code base matches (Hangul has no case). -/
def lowerChar (c : Char) : Char :=
  if 'A' ≤ c ∧ c ≤ 'Z' then Char.ofNat (c.toNat + 32) else c

/-- Lower-case a string for a case-insensitive comparison. -/
def lowerStr (s : List Char) : List Char := s.map lowerChar

/-- String.prototype.trim: strip leading and trailing `\s` characters. -/
def trimStr (s : List Char) : List Char :=
  ((s.dropWhile jsWs).reverse.dropWhile jsWs).reverse

/-- Worker for `collapseWs`.  The flag is true while we are inside a
whitespace run that has already been replaced by a single `' '`. -/
def collapseWsGo : Bool → List Char → List Char
  | _, [] => []
  | true, c :: rest =>
      if jsWs c then collapseWsGo true rest else c :: collapseWsGo false rest
  | false, c :: rest =>
      if jsWs c then
        match rest with
        | [] => [c]
        | d :: _ =>
            if jsWs d then ' ' :: collapseWsGo true rest
            else c :: collapseWsGo false rest
      else c :: collapseWsGo false rest

/-- `.replace(/\s{2,}/g, ' ')`: every maximal run of ≥ 2 whitespace characters
becomes one space; a lone whitespace character is kept unchanged. -/
def collapseWs (s : List Char) : List Char := collapseWsGo false s

/-- Worker for `collapseAllWs`; the flag is true inside a whitespace run. -/
def collapseAllWsGo : Bool → List Char → List Char
  | _, [] => []
  | inRun, c :: rest =>
      if jsWs c then
        if inRun then collapseAllWsGo true rest
        else ' ' :: collapseAllWsGo true rest
      else c :: collapseAllWsGo false rest

/-- `.replace(/\s+/g, ' ')`: every maximal whitespace run becomes one space. -/
def collapseAllWs (s : List Char) : List Char := collapseAllWsGo false s

/-- `.split(/\n/)` on a line-feed character (JS semantics: `"" ↦ [""]`,
`"\n" ↦ ["", ""]`). -/
def splitNl : List Char → List (List Char)
  | [] => [[]]
  | c :: rest =>
      if c = '\n' then [] :: splitNl rest
      else
        match splitNl rest with
        | l :: ls => (c :: l) :: ls
        | [] => [[c]]

/-- `.join('\n')`. -/
def joinNl : List (List Char) → List Char
  | [] => []
  | [l] => l
  | l :: ls => l ++ '\n' :: joinNl ls

/-- `.replace(/\\r\\n/g, '\n')` — the four literal characters `\`,`r`,`\`,`n`
become one LF (a list shorter than the pattern cannot contain it). -/
def replLitCRLF : List Char → List Char
  | c1 :: c2 :: c3 :: c4 :: rest =>
      if c1 = '\\' ∧ c2 = 'r' ∧ c3 = '\\' ∧ c4 = 'n' then
        '\n' :: replLitCRLF rest
      else c1 :: replLitCRLF (c2 :: c3 :: c4 :: rest)
  | l => l

/-- `.replace(/\\n/g, '\n')` — literal backslash-`n` becomes LF. -/
def replLitN : List Char → List Char
  | c :: d :: rest =>
      if c = '\\' ∧ d = 'n' then '\n' :: replLitN rest
      else c :: replLitN (d :: rest)
  | l => l

/-- `.replace(/\\t/g, '\t')` — literal backslash-`t` becomes TAB. -/
def replLitT : List Char → List Char
  | c :: d :: rest =>
      if c = '\\' ∧ d = 't' then '\t' :: replLitT rest
      else c :: replLitT (d :: rest)
  | l => l

/-- `.replace(/\r\n/g, '\n')`. -/
def replCRLF : List Char → List Char
  | c :: d :: rest =>
      if c = '\r' ∧ d = '\n' then '\n' :: replCRLF rest
      else c :: replCRLF (d :: rest)
  | l => l

/-- `.replace(/\r/g, '\n')`. -/
def replCR : List Char → List Char
  | c :: rest => if c = '\r' then '\n' :: replCR rest else c :: replCR rest
  | [] => []

/-- `.replace(/\t/g, ' | ')`. -/
def replTab : List Char → List Char
  | c :: rest =>
      if c = '\t' then ' ' :: '|' :: ' ' :: replTab rest
      else c :: replTab rest
  | [] => []

/-- Does a string match `\s*,?\s*$` — i.e. consist of whitespace with at most
one comma between two whitespace runs?  (Tail condition of the quote-wrapper
regex; the comma is not whitespace, so backtracking adds nothing.) -/
def wrapTailOk (s : List Char) : Bool :=
  match s.dropWhile jsWs with
  | [] => true
  | ',' :: r => (r.dropWhile jsWs).isEmpty
  | _ => false

/-- Lazy search for the closing quote of `^\s*"([\s\S]*?)"\s*,?\s*$`: the
least split `l = g ++ '"' :: t` with `wrapTailOk t`; returns `(g, t)`. -/
def findClose : List Char → Option (List Char × List Char)
  | [] => none
  | c :: t =>
      if c = '"' ∧ wrapTailOk t then some ([], t)
      else
        match findClose t with
        | some (g, t') => some (c :: g, t')
        | none => none

/-- The quote-wrapper step of `cleanOcrText`: if the whole text matches
`^\s*"([\s\S]*?)"\s*,?\s*$` replace it by the (lazy) group, else keep it.  The
greedy leading `\s*` is deterministic because `"` is not whitespace. -/
def stripWrapper (s : List Char) : List Char :=
  match s.dropWhile jsWs with
  | '"' :: rest =>
      match findClose rest with
      | some (g, _) => g
      | none => s
  | _ => s

/-- Line post-processing of `cleanOcrText`: split on LF, collapse whitespace
runs, trim, drop empty lines. -/
def cleanLines (s : List Char) : List (List Char) :=
  ((splitNl s).map fun l => trimStr (collapseWs l)).filter (· ≠ [])

/-- `cleanOcrText` (receipt-parser.js:81-97 / test.js:119-135): normalize
literal escape sequences, CR/CRLF, an optional quote wrapper, tabs to the
`" | "` column separator, then split/collapse/trim/filter/join the lines. -/
def cleanOcrText (s : List Char) : List Char :=
  joinNl (cleanLines (replTab (stripWrapper
    (replCR (replCRLF (replLitT (replLitN (replLitCRLF s))))))))

/-- `calculateVAT` (receipt-parser.js:621-624).  `none` models a
null/undefined/NaN argument (all caught by `!supplyAmount || isNaN(...)`;
note `!0` is also truthy, hence the `s = 0` branch).  `Math.ceil(s * 0.1)` is
embedded as the exact ceiling `-((-s) / 10)` (see the header comment). -/
def calculateVAT : Option ℤ → ℤ
  | none => 0
  | some s => if s = 0 then 0 else -((-s) / 10)

/-- Split on the bar character (worker for `splitToCols`). -/
def splitBar : List Char → List (List Char)
  | [] => [[]]
  | c :: rest =>
      if c = '|' then [] :: splitBar rest
      else
        match splitBar rest with
        | l :: ls => (c :: l) :: ls
        | [] => [[c]]

/-- `splitToCols` (receipt-parser.js:608-614):
`replace(/\s*\|\s*$/,'').split(/\s*\|\s*/).map(s => s.trim()).filter(Boolean)`.
Every separator match of `\s*\|\s*` contains exactly one bar, and the
whitespace it absorbs around each bar is removed again by the per-piece
`trim()`; the pieces the trailing-bar strip would remove trim to the empty
string and are removed by `filter(Boolean)`.  The composition is therefore
equal to: split on `'|'`, trim each piece, drop empty pieces. -/
def splitToCols (l : List Char) : List (List Char) :=
  ((splitBar l).map trimStr).filter (· ≠ [])

/-- `.join(' | ')`. -/
def joinBar : List (List Char) → List Char
  | [] => []
  | [c] => c
  | c :: cs => c ++ ' ' :: '|' :: ' ' :: joinBar cs

/-- Digit list to its decimal value (the integer `parseInt` computes). -/
def digitsToNat (ds : List Char) : ℕ :=
  ds.foldl (fun a c => a * 10 + (c.toNat - '0'.toNat)) 0

/-- `toIntStrict` (receipt-parser.js:323-326): strip every non-digit and
`parseInt` the rest; `none` when no digit remains. -/
def toIntStrict (s : List Char) : Option ℕ :=
  let ds := s.filter isDigitChar
  if ds = [] then none else some (digitsToNat ds)

/-- One-or-more groups `(,\d{3})+` reaching the end of the string. -/
def commaGroups : List Char → Bool
  | ',' :: a :: b :: c :: rest =>
      isDigitChar a ∧ isDigitChar b ∧ isDigitChar c ∧
      (rest = [] ∨ commaGroups rest)
  | _ => false

/-- `isMoneyToken` (receipt-parser.js:329-332):
`/^(\d{1,3}(,\d{3})+|\d{4,})$/` on the trimmed string.  The leading `\d{1,3}`
must be the whole digit run before the first comma (a digit cannot match the
`,`), so the first alternative is: maximal digit run of length 1–3 followed by
comma groups to the end. -/
def isMoneyToken (s : List Char) : Bool :=
  let t := trimStr s
  let ds := t.takeWhile isDigitChar
  (1 ≤ ds.length ∧ ds.length ≤ 3 ∧ commaGroups (t.drop ds.length)) ∨
  (t.all isDigitChar ∧ 4 ≤ t.length)

/-- `/^\d{1,2}$/` on the trimmed string (a quantity-like column). -/
def isQuantityLike (s : List Char) : Bool :=
  let t := trimStr s
  t.all isDigitChar ∧ 1 ≤ t.length ∧ t.length ≤ 2

/-- ASCII letter. -/
def isAsciiLetter (c : Char) : Bool := ('a' ≤ c ∧ c ≤ 'z') ∨ ('A' ≤ c ∧ c ≤ 'Z')

/-- `isUnitToken` inside `cleanRowsWithRules`:
`/^(?:kg|g|l|ml|cm|mm|ea)$/i` on the trimmed string. -/
def isUnitToken (s : List Char) : Bool :=
  let t := lowerStr (trimStr s)
  t = ['k','g'] ∨ t = ['g'] ∨ t = ['l'] ∨ t = ['m','l'] ∨ t = ['c','m'] ∨
  t = ['m','m'] ∨ t = ['e','a']

/-- `looksLikePrefixId` (receipt-parser.js:560):
`/^(?:\d{1,2}\.\d{1,2}\s+\S+|[A-Za-z]{2,}\d{2,}|\d{6,})$/` on the trimmed
string.  The bounded digit groups must be whole maximal runs (the characters
that follow them in the pattern are not digits). -/
def looksLikePrefixId (s : List Char) : Bool :=
  let t := trimStr s
  let d1 := t.takeWhile isDigitChar
  let altA : Bool :=
    decide (1 ≤ d1.length ∧ d1.length ≤ 2) &&
    (match t.drop d1.length with
     | '.' :: r2 =>
         let d2 := r2.takeWhile isDigitChar
         let r3 := r2.drop d2.length
         let w := r3.takeWhile jsWs
         let r4 := r3.drop w.length
         decide (1 ≤ d2.length ∧ d2.length ≤ 2 ∧ 1 ≤ w.length ∧ r4 ≠ []) &&
         r4.all fun c => ! jsWs c
     | _ => false)
  let letters := t.takeWhile isAsciiLetter
  let digitsAfter := t.drop letters.length
  let altB : Bool := decide (2 ≤ letters.length ∧ 2 ≤ digitsAfter.length) &&
    digitsAfter.all isDigitChar
  let altC : Bool := t.all isDigitChar && decide (6 ≤ t.length)
  altA || altB || altC

/-- `isNumericToken` inside `cleanRowsWithRules` (receipt-parser.js:541-544):
strip `[\s,]` then `/^\d+(?:\.\d+)?$/`. -/
def isNumericToken (s : List Char) : Bool :=
  let t := s.filter fun c => ¬ (jsWs c ∨ c = ',')
  let ds := t.takeWhile isDigitChar
  decide (1 ≤ ds.length) &&
  (match t.drop ds.length with
   | [] => true
   | '.' :: fs => decide (fs ≠ []) && fs.all isDigitChar
   | _ => false)

/-- Does the predicate hold at some suffix of the list (regex substring
search)? -/
def anySuffix (p : List Char → Bool) : List Char → Bool
  | [] => p []
  | c :: rest => p (c :: rest) || anySuffix p rest

/-- Substring test for a fixed pattern. -/
def hasSubstr (pat s : List Char) : Bool :=
  anySuffix (pat.isPrefixOf ·) s

/-- `/0K\s*aF/i` starting at the head of an (already lower-cased) string. -/
def rule0kAfAt : List Char → Bool
  | '0' :: 'k' :: rest =>
      match rest.dropWhile jsWs with
      | 'a' :: 'f' :: _ => true
      | _ => false
  | _ => false

/-- `/품목\s*[-–—~]\s*규격/i` starting at the head of a string. -/
def ruleMergedHeaderAt : List Char → Bool
  | '품' :: '목' :: rest =>
      (match rest.dropWhile jsWs with
       | d :: rest2 =>
           decide (d = '-' ∨ d = '–' ∨ d = '—' ∨ d = '~') &&
           (match rest2.dropWhile jsWs with
            | '규' :: '격' :: _ => true
            | _ => false)
       | [] => false)
  | _ => false

/-- `/^-?\s*규격$/i`: optional dash, whitespace, then exactly `규격`. -/
def ruleBareSpec (s : List Char) : Bool :=
  let s1 := match s with
    | '-' :: r => r
    | r => r
  s1.dropWhile jsWs = ['규', '격']

/-- `/^\d{5,6}-\d{2,5}$/i`: 5–6 digits, a dash, 2–5 digits. -/
def ruleIdCode (s : List Char) : Bool :=
  let ds := s.takeWhile isDigitChar
  decide (ds.length = 5 ∨ ds.length = 6) &&
  (match s.drop ds.length with
   | '-' :: r2 =>
       r2.all isDigitChar && decide (2 ≤ r2.length ∧ r2.length ≤ 5)
   | _ => false)

/-- The noise-column rule list of `cleanRowsWithRules`
(receipt-parser.js:516-534); a column is dropped when any pattern matches.
Case-insensitive patterns are tested on the lower-cased column. -/
def matchesNoiseRule (col : List Char) : Bool :=
  let lc := lowerStr col
  hasSubstr ['s','o','f','t','c','i','t','y','.','c','o','.','k','r'] lc ∨
  hasSubstr ['w','w','w','.'] lc ∨
  hasSubstr ['n','o'] lc ∨
  hasSubstr ['b','o','x'] lc ∨
  hasSubstr ['e','a'] lc ∨
  hasSubstr ['특','허','출','원'] lc ∨
  anySuffix rule0kAfAt lc ∨
  anySuffix ruleMergedHeaderAt lc ∨
  hasSubstr ['경','영','박','사'] lc ∨
  hasSubstr ['1','영','박','사'] lc ∨
  lc = ['품','목'] ∨
  ruleBareSpec lc ∨
  lc = ['수','량'] ∨
  ruleIdCode lc ∨
  hasSubstr ['박','사'] lc

/-- The leading id-like prefix pruning of `cleanRowsWithRules`
(receipt-parser.js:559-571). -/
def prunePrefix (cs : List (List Char)) : List (List Char) :=
  if 7 ≤ cs.length then
    match cs with
    | c0 :: rest =>
        if ¬ isMoneyToken c0 ∧ looksLikePrefixId c0 ∧ rest.any isUnitToken ∧
            2 ≤ (rest.filter isMoneyToken).length ∧
            1 ≤ (rest.filter isQuantityLike).length
        then rest else cs
    | [] => cs
  else cs

/-- The surviving columns of a row: noise filtering then prefix pruning. -/
def effectiveCols (line : List Char) : List (List Char) :=
  prunePrefix ((splitToCols line).filter fun c => ¬ matchesNoiseRule c)

/-- `newCols.some(col => /^\d{1,2}$/.test(String(col).trim()))`. -/
def hasQuantityLikeCol (cs : List (List Char)) : Bool := cs.any isQuantityLike

/-- Effective column count: actual count, plus one when no quantity-like
column is present (receipt-parser.js:580-582). -/
def nEffective (cs : List (List Char)) : ℕ :=
  cs.length + (if hasQuantityLikeCol cs then 0 else 1)

/-- Queue-fill threshold: 5 for the first successful consumption, 6 after. -/
def queueThreshold (first : Bool) : ℕ := if first then 5 else 6

/-- Queue consumption (receipt-parser.js:578-599).  Returns the new columns,
the new queue and the new first-fill flag.  In the swap branch the JS loop
shifts from the queue's front and pushes each displaced trailing cell to its
back; since `k ≤ q.length` the shifts never reach the pushed cells, so the
loop equals the closed form below. -/
def consumeQueue (q : List (List Char)) (first : Bool)
    (cs : List (List Char)) :
    List (List Char) × List (List Char) × Bool :=
  if q = [] ∨ cs = [] then (cs, q, first)
  else if nEffective cs < queueThreshold first then
    let need := queueThreshold first - nEffective cs
    let add := min q.length need
    (cs ++ q.take add, q.drop add, if 0 < add then false else first)
  else
    let n := cs.length
    let k := min q.length n
    (cs.take (n - k) ++ q.take k, q.drop k ++ cs.drop (n - k),
     if 0 < k then false else first)

/-- Loop state of `cleanRowsWithRules` (the `removed` diagnostic list is not
modelled). -/
structure CleanState where
  kept : List (List Char)
  queue : List (List Char)
  firstQueueFill : Bool
deriving DecidableEq

/-- One iteration of the `cleanRowsWithRules` row loop
(receipt-parser.js:545-605): filter noise columns, prune a prefix id, absorb a
purely-numeric line into the front of the queue, otherwise consume the queue
and keep the joined row unless it is empty. -/
def cleanStep (st : CleanState) (line : List Char) : CleanState :=
  let newCols := effectiveCols line
  if newCols ≠ [] ∧ newCols.all isNumericToken then
    { st with queue := newCols ++ st.queue }
  else
    let r := consumeQueue st.queue st.firstQueueFill newCols
    let joined := trimStr (joinBar r.1)
    if joined = [] then { kept := st.kept, queue := r.2.1, firstQueueFill := r.2.2 }
    else { kept := st.kept ++ [joined], queue := r.2.1, firstQueueFill := r.2.2 }

/-- `cleanRowsWithRules` (receipt-parser.js:515-607), returning the `kept`
rows. -/
def cleanRowsWithRules (rows : List (List Char)) : List (List Char) :=
  (rows.foldl cleanStep ⟨[], [], true⟩).kept

/-- `replace(/\s+/g, '')`: strip every whitespace character. -/
def stripWs (s : List Char) : List Char := s.filter fun c => ! jsWs c

/-- `.join(' ')`. -/
def joinSpace : List (List Char) → List Char
  | [] => []
  | [c] => c
  | c :: cs => c ++ ' ' :: joinSpace cs

/-- A stitched/header keyword hit (`{rowIndex, startCol, endCol, stitched,
normalized}`). -/
structure StitchHit where
  rowIndex : ℕ
  startCol : ℕ
  endCol : ℕ
  stitched : List Char
  normalized : List Char
deriving DecidableEq

/-- A single-cell keyword hit of `findCellsByKeywords` (`{rowIndex, colIndex,
value}`; the `line` field is redundant and not modelled). -/
structure CellHit where
  rowIndex : ℕ
  colIndex : ℕ
  value : List Char
deriving DecidableEq

/-- `findStitchedKeywords` (receipt-parser.js:207-224): for every row, start
column and span `1..maxSpan`, join the spanned columns with one space and
compare whitespace-stripped against the whitespace-stripped keywords. -/
def findStitchedKeywords (lines : List (List Char))
    (baseKeywords : List (List Char)) (maxSpan : ℕ) : List StitchHit :=
  let targets := baseKeywords.map stripWs
  (List.range lines.length).flatMap fun r =>
    let cols := splitToCols (lines.getD r [])
    (List.range cols.length).flatMap fun i =>
      (List.range maxSpan).filterMap fun s0 =>
        if i + s0 < cols.length then
          let stitched := joinSpace ((cols.drop i).take (s0 + 1))
          let normalized := stripWs stitched
          if normalized ∈ targets then
            some ⟨r, i, i + s0, stitched, normalized⟩
          else none
        else none

/-- Does the loose pattern of a keyword (its characters separated by `\s*`,
case-insensitive) match at the head of the string? -/
def looseAt : List Char → List Char → Bool
  | [], _ => true
  | _ :: _, [] => false
  | p :: ps, c :: rest =>
      lowerChar c = lowerChar p && looseAt ps (rest.dropWhile jsWs)

/-- `makeLooseRegexFromKeyword(word).test(s)`: the loose pattern matches at
some position. -/
def looseTest (word s : List Char) : Bool := anySuffix (looseAt word) s

/-- `buildVariantsRegex(variants).test(s)`: some variant matches. -/
def variantsTest (variants : List (List Char)) (s : List Char) : Bool :=
  variants.any (looseTest · s)

/-- `findCellsByKeywords` (receipt-parser.js:226-237). -/
def findCellsByKeywords (lines : List (List Char))
    (variants : List (List Char)) : List CellHit :=
  (List.range lines.length).flatMap fun r =>
    let cols := splitToCols (lines.getD r [])
    (List.range cols.length).filterMap fun c =>
      if variantsTest variants (cols.getD c []) then
        some ⟨r, c, cols.getD c []⟩
      else none

/-- `getCell` (receipt-parser.js:293-297). -/
def getCell (lines : List (List Char)) (r c : ℕ) : Option (List Char) :=
  if r < lines.length then
    let cols := splitToCols (lines.getD r [])
    if c < cols.length then some (cols.getD c []) else none
  else none

/-- JS `Map.set` on an association list keyed by the `(row, startCol, endCol)`
position: update in place if present (preserving insertion order), else
append. -/
def mapSet (m : List ((ℕ × ℕ × ℕ) × StitchHit)) (k : ℕ × ℕ × ℕ)
    (v : StitchHit) : List ((ℕ × ℕ × ℕ) × StitchHit) :=
  if m.any fun e => e.1 = k then
    m.map fun e => if e.1 = k then (k, v) else e
  else m ++ [(k, v)]

/-- `checkIsItHeaderLine` (receipt-parser.js:239-270): loose seed hits for
`단`/`가`/`단가`, stitched `단가` over spans of ≤ 2 columns, merged by
position (seeds only contribute cells that equal `단가` after whitespace
stripping). -/
def checkIsItHeaderLine (lines : List (List Char)) : List StitchHit :=
  let stitched := findStitchedKeywords lines [['단', '가']] 2
  let m1 := stitched.foldl
    (fun m s => mapSet m (s.rowIndex, s.startCol, s.endCol) s) []
  let seeds := findCellsByKeywords lines [['단'], ['가'], ['단', '가']]
  let m2 := seeds.foldl
    (fun m s =>
      match getCell lines s.rowIndex s.colIndex with
      | some cell =>
          if stripWs cell = ['단', '가'] then
            mapSet m (s.rowIndex, s.colIndex, s.colIndex)
              ⟨s.rowIndex, s.colIndex, s.colIndex, cell, ['단', '가']⟩
          else m
      | none => m)
    m1
  m2.map (·.2)

/-- `FOOTER_MARKER_REGEX` = `/=+\s*(?:[이ㅣI|l1아]\s*)?하여백\s*=+/i` matching
at the head of an already lower-cased string.  The `=+` runs are maximal (no
later pattern part matches `=`), and skipping a present class character can
never help the optional group (no class character equals `하`), so the
matcher is deterministic. -/
def footerMarkerAt : List Char → Bool
  | '=' :: rest =>
      let r1 := rest.dropWhile (· = '=')
      let r2 := r1.dropWhile jsWs
      let r3 :=
        match r2 with
        | c :: r2' =>
            if c = '이' ∨ c = 'ㅣ' ∨ c = 'i' ∨ c = '|' ∨ c = 'l' ∨ c = '1' ∨
                c = '아'
            then r2'.dropWhile jsWs else r2
        | [] => r2
      (match r3 with
       | '하' :: '여' :: '백' :: r4 =>
           (match r4.dropWhile jsWs with
            | '=' :: _ => true
            | _ => false)
       | _ => false)
  | _ => false

/-- `FOOTER_MARKER_REGEX.test(line)`. -/
def lineIsFooterMarker (line : List Char) : Bool :=
  anySuffix footerMarkerAt (lowerStr line)

/-- Footer kinds: an explicit end-of-table banner or the assignee fallback. -/
inductive FooterKind
  | marker
  | assignee
deriving DecidableEq

/-- A footer hit; `colIndex` is `none` for the banner marker (the source
stores `null`). -/
structure FooterHit where
  kind : FooterKind
  rowIndex : ℕ
  colIndex : Option ℕ
  value : List Char
deriving DecidableEq

/-- `reduce((a, b) => a.rowIndex <= b.rowIndex ? a : b)` over assignee hits. -/
def earliestHit : CellHit → List CellHit → CellHit
  | a, [] => a
  | a, b :: t => earliestHit (if a.rowIndex ≤ b.rowIndex then a else b) t

/-- `checkIsItFooterLine` (receipt-parser.js:272-290): the first row matching
the banner regex, else the earliest `인수자` cell; the source returns a list
with at most one element, modelled as an `Option`. -/
def checkIsItFooterLine (lines : List (List Char)) : Option FooterHit :=
  match (List.range lines.length).find?
      (fun r => lineIsFooterMarker (lines.getD r [])) with
  | some r => some ⟨.marker, r, none, lines.getD r []⟩
  | none =>
      match findCellsByKeywords lines [['인', '수', '자']] with
      | [] => none
      | h :: t =>
          let e := earliestHit h t
          some ⟨.assignee, e.rowIndex, some e.colIndex, e.value⟩

/-- The header row index: `Math.min` over all header-hit row indices. -/
def headerIndexOf (lines : List (List Char)) : Option ℕ :=
  match checkIsItHeaderLine lines with
  | [] => none
  | h :: t => some (t.foldl (fun a x => min a x.rowIndex) h.rowIndex)

/-- The pre-clamp end cut (receipt-parser.js:312-314): the footer row index
minus 1 for a banner marker, minus 2 for the assignee fallback. -/
def footerEndCut (f : FooterHit) : ℤ :=
  match f.kind with
  | .marker => (f.rowIndex : ℤ) - 1
  | .assignee => (f.rowIndex : ℤ) - 2

/-- The `{start, end, rows}` result of the slicer; the source's `end` field is
called `stop` (`end` is a Lean keyword). -/
structure TableSlice where
  start : Option ℕ
  stop : Option ℤ
  rows : List (List Char)
deriving DecidableEq

/-- `sliceRowsBetweenHeaderFooter` (receipt-parser.js:303-318). -/
def sliceRowsBetweenHeaderFooter (lines : List (List Char)) : TableSlice :=
  match headerIndexOf lines with
  | none => ⟨none, none, []⟩
  | some headerIndex =>
      match checkIsItFooterLine lines with
      | none =>
          ⟨some (headerIndex + 1), none, lines.drop (headerIndex + 1)⟩
      | some f =>
          let start : ℕ := min (headerIndex + 1) lines.length
          let stop : ℤ :=
            max (min (footerEndCut f) ((lines.length : ℤ) - 1)) (-1)
          let rows :=
            if (start : ℤ) ≤ stop then
              (lines.drop start).take ((stop + 1 - start).toNat)
            else []
          ⟨some start, some stop, rows⟩

/-- Hangul syllable (the `가-힣` class). -/
def isHangul (c : Char) : Bool := '가' ≤ c ∧ c ≤ '힣'

/-- `normalizeDigits` in `parseItemRow`: `replace(/[\s,.-]/g, '')`. -/
def normalizeDigits (s : List Char) : List Char :=
  s.filter fun c => ¬ (jsWs c ∨ c = ',' ∨ c = '.' ∨ c = '-')

/-- `/^\d+$/`. -/
def isAllDigits (t : List Char) : Bool := t ≠ [] ∧ t.all isDigitChar

/-- Length consumed by the unit alternation `(?:kg|g|l|ml|cm|mm|ea)` (tried in
that order, case-insensitive) at the head of the string; at any position at
most one alternative can match. -/
def unitLen : List Char → Option ℕ
  | [] => none
  | [a] =>
      if lowerChar a = 'g' ∨ lowerChar a = 'l' then some 1 else none
  | a :: b :: _ =>
      let a' := lowerChar a
      let b' := lowerChar b
      if a' = 'k' ∧ b' = 'g' then some 2
      else if a' = 'g' then some 1
      else if a' = 'l' then some 1
      else if a' = 'm' ∧ b' = 'l' then some 2
      else if a' = 'c' ∧ b' = 'm' then some 2
      else if a' = 'm' ∧ b' = 'm' then some 2
      else if a' = 'e' ∧ b' = 'a' then some 2
      else none

/-- Candidate lengths for `(?:\s*\*\s*\d+(?:\s*ea)?)?` in backtracking order
(group absent, length 0, is always tried last).  Shortening the greedy `\d+`
leaves a digit as the next character, which can satisfy neither the optional
`ea`, the trailing-number group nor a final word boundary, so only the
maximal digit run contributes candidates. -/
def multCandidates (t : List Char) : List ℕ :=
  let w1 := (t.takeWhile jsWs).length
  match t.drop w1 with
  | '*' :: r1 =>
      let w2 := (r1.takeWhile jsWs).length
      let ds := (r1.drop w2).takeWhile isDigitChar
      if ds = [] then [0]
      else
        let base := w1 + 1 + w2 + ds.length
        let r2 := r1.drop (w2 + ds.length)
        let w3 := (r2.takeWhile jsWs).length
        (match lowerStr ((r2.drop w3).take 2) with
         | ['e', 'a'] => [base + w3 + 2, base, 0]
         | _ => [base, 0])
  | _ => [0]

/-- Candidate lengths for `(?:\s+\d{1,3})?` in backtracking order.  Without an
end boundary (`endB = false`) the greedy group deterministically takes the
whitespace run plus up to 3 digits; with a boundary, digit runs longer than 3
and every shortened run abut a digit and always fail, so only the full run of
length ≤ 3 is a candidate besides absence. -/
def trailCandidates (endB : Bool) (t : List Char) : List ℕ :=
  let w := (t.takeWhile jsWs).length
  let ds := (t.drop w).takeWhile isDigitChar
  if 1 ≤ w ∧ 1 ≤ ds.length then
    if endB then
      (if ds.length ≤ 3 then [w + ds.length] else []) ++ [0]
    else [w + min 3 ds.length, 0]
  else [0]

/-- The end word-boundary test (`\b` after a digit or unit letter): the next
character must be a non-word character or the end. -/
def boundaryOk (endB : Bool) (rest : List Char) : Bool :=
  if endB then
    (match rest with
     | [] => true
     | c :: _ => ! isWordChar c)
  else true

/-- Length consumed at the head of the string by the specification core
`[0-9]+(?:\.[0-9]+)?\s*(?:kg|g|l|ml|cm|mm|ea)(?:\s*\*\s*\d+(?:\s*ea)?)?`
optionally followed by `(?:\s+\d{1,3})?` (`trail`), optionally requiring a
final word boundary (`endB`).  The fraction and the `\s*` before the unit are
deterministic (their backtracking alternatives abut characters that can never
continue the pattern). -/
def matchSpecLen (trail endB : Bool) (s : List Char) : Option ℕ :=
  let d1 := s.takeWhile isDigitChar
  if d1 = [] then none
  else
    let r1 := s.drop d1.length
    let fracLen :=
      match r1 with
      | '.' :: r2 =>
          let fd := r2.takeWhile isDigitChar
          if fd = [] then 0 else fd.length + 1
      | _ => 0
    let p2 := d1.length + fracLen
    let r2 := s.drop p2
    let wsLen := (r2.takeWhile jsWs).length
    match unitLen (r2.drop wsLen) with
    | none => none
    | some ul =>
        let p3 := p2 + wsLen + ul
        (multCandidates (s.drop p3)).findSome? fun m =>
          let p4 := p3 + m
          (if trail then trailCandidates endB (s.drop p4) else [0]).findSome?
            fun tl =>
              let p5 := p4 + tl
              if boundaryOk endB (s.drop p5) then some p5 else none

/-- Leftmost match of `-\s*(core…)`: scan for a dash whose following text
(after whitespace) matches the core; returns the dash index and the group
text. -/
def findDashSpecGo (trail : Bool) (idx : ℕ) : List Char → Option (ℕ × List Char)
  | [] => none
  | c :: rest =>
      if c = '-' then
        let t := rest.dropWhile jsWs
        match matchSpecLen trail false t with
        | some len => some (idx, t.take len)
        | none => findDashSpecGo trail (idx + 1) rest
      else findDashSpecGo trail (idx + 1) rest

/-- Paren spans of `/\([^()]*\)/g` as `[start, stop)` index pairs.  The fuel
is the string length plus one; the scan position strictly increases. -/
def parenSpansGo (fuel pos : ℕ) (s : List Char) : List (ℕ × ℕ) :=
  match fuel with
  | 0 => []
  | fuel + 1 =>
      match s with
      | [] => []
      | '(' :: rest =>
          let body := rest.takeWhile fun c => ¬ (c = '(' ∨ c = ')')
          (match rest.drop body.length with
           | ')' :: rest3 =>
               (pos, pos + body.length + 2) ::
                 parenSpansGo fuel (pos + body.length + 2) rest3
           | _ => parenSpansGo fuel (pos + 1) rest)
      | _ :: rest => parenSpansGo fuel (pos + 1) rest

/-- All non-nested parenthesis spans of a string. -/
def parenSpans (s : List Char) : List (ℕ × ℕ) :=
  parenSpansGo (s.length + 1) 0 s

/-- Is the index inside one of the spans? -/
def isInsideParens (spans : List (ℕ × ℕ)) (idx : ℕ) : Bool :=
  spans.any fun sp => sp.1 ≤ idx ∧ idx < sp.2

/-- Global scan of the standalone pattern `\b(core…)\b`: positions advance
left to right; a match starting inside a paren span is skipped and the scan
resumes after it (`lastIndex` semantics); `prevWord` tracks the character
before the current position for the leading `\b` (the first matched character
is a digit, hence a word character). -/
def standaloneScanGo (trail : Bool) (fuel : ℕ) (spans : List (ℕ × ℕ))
    (s : List Char) (p : ℕ) (prevWord : Bool) : Option (ℕ × List Char) :=
  match fuel with
  | 0 => none
  | fuel + 1 =>
      match s.drop p with
      | [] => none
      | c :: _ =>
          if ¬ prevWord then
            match matchSpecLen trail true (s.drop p) with
            | some len =>
                if isInsideParens spans p then
                  standaloneScanGo trail fuel spans s (p + len) true
                else some (p, (s.drop p).take len)
            | none => standaloneScanGo trail fuel spans s (p + 1) (isWordChar c)
          else standaloneScanGo trail fuel spans s (p + 1) (isWordChar c)

/-- `.replace(/[-—]\s*$/, '')`: remove one trailing dash together with the
whitespace after it. -/
def trimTrailingDash (s : List Char) : List Char :=
  let r1 := s.reverse.dropWhile jsWs
  match r1 with
  | c :: r2 => if c = '-' ∨ c = '—' then r2.reverse else s
  | [] => s

/-- `.replace(pat, '')` with a plain-string pattern: remove the first
occurrence of `pat`. -/
def removeFirst (pat : List Char) : List Char → List Char
  | [] => []
  | c :: rest =>
      if pat.isPrefixOf (c :: rest) then (c :: rest).drop pat.length
      else c :: removeFirst pat rest

/-- `splitSpecFromItemName` (receipt-parser.js:351-383): prefer the
dash-introduced specification; else the first standalone specification
outside parentheses; else no specification. -/
def splitSpecFromItemName (s : List Char) : List Char × List Char :=
  match findDashSpecGo true 0 s with
  | some (idx, g) =>
      (trimStr (trimTrailingDash (s.take idx)), trimStr (collapseAllWs g))
  | none =>
      match standaloneScanGo true (s.length + 1) (parenSpans s) s 0 false with
      | some (_, g) =>
          (trimStr (trimTrailingDash (collapseWs (removeFirst g s))),
           trimStr (collapseAllWs g))
      | none => (trimStr s, [])

/-- `extractSpecificationFromText` (receipt-parser.js:337-348): the two
patterns (dash-introduced, then standalone with word boundaries), both
without the trailing-number group. -/
def extractSpecificationFromText (s : List Char) : List Char :=
  match findDashSpecGo false 0 s with
  | some (_, g) => trimStr (collapseAllWs g)
  | none =>
      match standaloneScanGo false (s.length + 1) [] s 0 false with
      | some (_, g) => trimStr (collapseAllWs g)
      | none => []

/-- The result record of `parseItemRow`; `specification` distinguishes the
empty string (`some []`) from `null` (`none`). -/
structure ParsedItem where
  item : List Char
  specification : Option (List Char)
  quantity : Option ℕ
  unitPrice : ℕ
  supplyAmount : Option ℕ
deriving DecidableEq

/-- The numeric-item repair loop of `parseItemRow` (receipt-parser.js:399-423):
first later column that is non-empty, not purely numeric after
`normalizeDigits`, and either contains a Latin/Hangul letter or has a
non-empty normalization. -/
def repairScan : List (List Char) → Option (List Char)
  | [] => none
  | c0 :: rest =>
      let candidate := trimStr c0
      if candidate = [] then repairScan rest
      else
        let candNorm := normalizeDigits candidate
        if ¬ isAllDigits candNorm then
          if candidate.any (fun c => isAsciiLetter c ∨ isHangul c) ∨
              candNorm ≠ [] then
            some candidate
          else repairScan rest
        else repairScan rest

/-- The item/specification phase of `parseItemRow`
(receipt-parser.js:385-423): split the specification off column 0, repair a
purely-numeric item name from a later column, reject if still numeric. -/
def itemSpecPhase (cols : List (List Char)) : Option (List Char × List Char) :=
  match cols with
  | [] => none
  | c0 :: _ =>
      let rawItem := trimStr c0
      if rawItem = [] then none
      else
        let sp := splitSpecFromItemName rawItem
        if isAllDigits (normalizeDigits sp.1) then
          match repairScan (cols.drop 1) with
          | some candidate =>
              let sp2 := splitSpecFromItemName candidate
              if isAllDigits (normalizeDigits sp2.1) then none
              else some (sp2.1, if sp.2 = [] then sp2.2 else sp.2)
          | none => none
        else some (sp.1, sp.2)

/-- Quantity candidates `(index, value)` for columns `1..` matching
`/^\d{1,2}$/` after trimming (receipt-parser.js:440-443). -/
def quantityCandidates (cols : List (List Char)) : List (ℕ × ℕ) :=
  (List.range cols.length).filterMap fun i =>
    if 1 ≤ i ∧ isQuantityLike (cols.getD i []) then
      some (i, digitsToNat (trimStr (cols.getD i [])))
    else none

/-- Money tokens `(index, value)` from column `start` on, keeping values
≥ 1000 (receipt-parser.js:452-458). -/
def moneyList (cols : List (List Char)) (start : ℕ) : List (ℕ × ℕ) :=
  (List.range cols.length).filterMap fun i =>
    if start ≤ i ∧ isMoneyToken (cols.getD i []) then
      match toIntStrict (cols.getD i []) with
      | some n => if 1000 ≤ n then some (i, n) else none
      | none => none
    else none

/-- First pair of index-adjacent money tokens (receipt-parser.js:464-472). -/
def pickAdjacent : List (ℕ × ℕ) → Option ((ℕ × ℕ) × (ℕ × ℕ))
  | a :: b :: rest =>
      if b.1 = a.1 + 1 then some (a, b) else pickAdjacent (b :: rest)
  | _ => none

/-- Unit-price/supply-amount selection (receipt-parser.js:459-485): the first
adjacent pair, else the first money token paired with the next (not
necessarily adjacent) one. -/
def pickMoney (money : List (ℕ × ℕ)) : Option ((ℕ × ℕ) × Option (ℕ × ℕ)) :=
  match pickAdjacent money with
  | some (a, b) => some (a, some b)
  | none =>
      match money with
      | m0 :: _ => some (m0, money.find? fun m => m0.1 < m.1)
      | [] => none

/-- Immediate quantity acceptance: exactly one candidate
(receipt-parser.js:444-449). -/
def quantityPick (qcands : List (ℕ × ℕ)) : Option (ℕ × ℕ) :=
  match qcands with
  | [q] => some q
  | _ => none

/-- `Math.max(1, quantityIndex != null ? quantityIndex + 1 : 1)`. -/
def moneyStart (q0 : Option (ℕ × ℕ)) : ℕ :=
  match q0 with
  | some q => max 1 (q.1 + 1)
  | none => 1

/-- The phase of `parseItemRow` after the item/specification split
(receipt-parser.js:425-498): specification fallback and dash normalization,
quantity candidates, money selection, quantity fallback. -/
def parseItemRowRest (cols : List (List Char)) (item spec0 : List Char) :
    Option ParsedItem :=
  let spec1 :=
    if spec0 = [] ∧ 1 < cols.length then
      let nextCol := trimStr (cols.getD 1 [])
      if ¬ isQuantityLike nextCol then
        let extracted := extractSpecificationFromText nextCol
        if extracted ≠ [] then extracted else nextCol
      else spec0
    else spec0
  let specification : Option (List Char) :=
    if trimStr spec1 = ['-'] then none else some spec1
  let qcands := quantityCandidates cols
  let q0 := quantityPick qcands
  let money := moneyList cols (moneyStart q0)
  match pickMoney money with
  | none => none
  | some (up, sa) =>
      let quantity : Option (ℕ × ℕ) :=
        match q0 with
        | some q => some q
        | none =>
            qcands.find? fun q =>
              ! (decide (q.1 = up.1) ||
                 (match sa with
                  | some sA => decide (q.1 = sA.1)
                  | none => false))
      some ⟨item, specification, quantity.map (·.2), up.2, sa.map (·.2)⟩

/-- `parseItemRow` (receipt-parser.js:385-499). -/
def parseItemRow (cols : List (List Char)) : Option ParsedItem :=
  match itemSpecPhase cols with
  | none => none
  | some (item, spec0) => parseItemRowRest cols item spec0

/-- `parseItemsFromRows` (receipt-parser.js:502-511); the accepted row always
has a non-null unit price, so the extra check is subsumed. -/
def parseItemsFromRows (rows : List (List Char)) : List ParsedItem :=
  rows.filterMap fun line => parseItemRow (splitToCols line)

/-- A parsed item after the VAT pass of `main` (receipt-parser.js:875-879);
`vat` is `none` when not attached (falsy `supplyAmount`). -/
structure ParsedItemV where
  item : List Char
  specification : Option (List Char)
  quantity : Option ℕ
  unitPrice : ℕ
  supplyAmount : Option ℕ
  vat : Option ℤ
deriving DecidableEq

/-- `if (item.supplyAmount) item.vat = calculateVAT(item.supplyAmount)`. -/
def attachVAT (it : ParsedItem) : ParsedItemV :=
  { item := it.item, specification := it.specification,
    quantity := it.quantity, unitPrice := it.unitPrice,
    supplyAmount := it.supplyAmount,
    vat :=
      match it.supplyAmount with
      | some n => if n ≠ 0 then some (calculateVAT (some (n : ℤ))) else none
      | none => none }

/-- Validation failure reasons of `validateRowSchema`; each constructor
stands for one issue message pushed by the source (arguments carry the
interpolated counts). -/
inductive Issue
  | insufficientCols (got : ℕ)
  | missingItem
  | missingMoney (found : ℕ)
  | missingQuantity
  | itemNull
  | quantityNull
  | unitPriceNull
  | supplyAmountNull
deriving DecidableEq

/-- `isValidMoney` (receipt-parser.js:637-641): strip `[,\s]`, then
`/^\d{4,}$/`. -/
def isValidMoney (val : List Char) : Bool :=
  if val = [] then false
  else
    let cleaned := val.filter fun c => ¬ (c = ',' ∨ jsWs c)
    cleaned.all isDigitChar && decide (4 ≤ cleaned.length)

/-- `isValidQuantity` (receipt-parser.js:644-648): strip `[,\s]`, then
`/^\d{1,3}$/`. -/
def isValidQuantity (val : List Char) : Bool :=
  if val = [] then false
  else
    let cleaned := val.filter fun c => ¬ (c = ',' ∨ jsWs c)
    cleaned.all isDigitChar && decide (1 ≤ cleaned.length ∧ cleaned.length ≤ 3)

/-- `isValidItem` (receipt-parser.js:651-655): non-empty after trimming and
containing a Hangul or Latin letter. -/
def isValidItem (val : List Char) : Bool :=
  if val = [] ∨ trimStr val = [] then false
  else val.any fun c => isHangul c ∨ isAsciiLetter c

/-- The `schema` object assembled by `validateRowSchema` (column values by
role; `none` models `null`). -/
structure RowSchema where
  item : Option (List Char)
  specification : Option (List Char)
  quantity : Option (List Char)
  unitPrice : Option (List Char)
  supplyAmount : Option (List Char)
  vat : Option (List Char)
deriving DecidableEq

/-- One `validation` record of `validateRowSchema`; `schema` is `none` on the
early-return paths (the field is left unset there). -/
structure RowValidation where
  rowIndex : ℕ
  row : List Char
  cols : List (List Char)
  colCount : ℕ
  issues : List Issue
  schema : Option RowSchema
deriving DecidableEq

/-- First column with index in `[lo, hi)` satisfying the predicate, with its
value. -/
def firstColSat (cols : List (List Char)) (lo hi : ℕ)
    (p : List Char → Bool) : Option (ℕ × List Char) :=
  (List.range' lo (hi - lo)).findSome? fun i =>
    if p (cols.getD i []) then some (i, cols.getD i []) else none

/-- JS falsiness of a nullable string: `null`/`undefined` or the empty
string. -/
def jsFalsyStr : Option (List Char) → Bool
  | none => true
  | some v => v = []

/-- The item column: first column whose value `isValidItem`
(receipt-parser.js:683-688). -/
def schemaItemCol (cols : List (List Char)) : Option (ℕ × List Char) :=
  firstColSat cols 0 cols.length isValidItem

/-- The money-token columns (receipt-parser.js:697-702). -/
def schemaMoneyTokens (cols : List (List Char)) : List (ℕ × List Char) :=
  (List.range cols.length).filterMap fun i =>
    if isValidMoney (cols.getD i []) then some (i, cols.getD i []) else none

/-- Per-row body of `validateRowSchema` (receipt-parser.js:657-767). -/
def validateRow (index : ℕ) (row : List Char) : RowValidation :=
  let cols := splitToCols row
  if cols.length < 4 then
    ⟨index, row, cols, cols.length, [.insufficientCols cols.length], none⟩
  else
    match schemaItemCol cols with
    | none => ⟨index, row, cols, cols.length, [.missingItem], none⟩
    | some itemCol =>
        let moneyTokens := schemaMoneyTokens cols
        if moneyTokens.length < 2 then
          ⟨index, row, cols, cols.length, [.missingMoney moneyTokens.length],
            none⟩
        else
          let unitPriceCol := moneyTokens.getD 0 (0, [])
          let supplyAmountCol := moneyTokens.getD 1 (0, [])
          let vatCol := (moneyTokens.drop 2).head?
          let quantityCol :=
            firstColSat cols (itemCol.1 + 1) unitPriceCol.1 isValidQuantity
          let specCol :=
            match quantityCol with
            | some qc =>
                firstColSat cols (itemCol.1 + 1) qc.1 fun v =>
                  decide (v ≠ []) && ! isValidQuantity v && ! isValidMoney v
            | none => none
          let schema : RowSchema :=
            { item := some itemCol.2, specification := specCol.map (·.2),
              quantity := quantityCol.map (·.2),
              unitPrice := some unitPriceCol.2,
              supplyAmount := some supplyAmountCol.2,
              vat := vatCol.map (·.2) }
          let issues :=
            (if quantityCol = none then [Issue.missingQuantity] else []) ++
            (if jsFalsyStr schema.item then [Issue.itemNull] else []) ++
            (if jsFalsyStr schema.quantity then [Issue.quantityNull] else []) ++
            (if jsFalsyStr schema.unitPrice then [Issue.unitPriceNull] else []) ++
            (if jsFalsyStr schema.supplyAmount then [Issue.supplyAmountNull]
             else [])
          ⟨index, row, cols, cols.length, issues, some schema⟩

/-- `validateRowSchema` (receipt-parser.js:632-770): the `(valid, invalid)`
partition.  The source pushes every record either where its early return
fires (issues non-empty) or by the final emptiness test, so the partition by
`issues = []` reproduces both arrays in order. -/
def validateRowSchema (rows : List (List Char)) :
    List RowValidation × List RowValidation :=
  let rs := (List.range rows.length).map fun i => validateRow i (rows.getD i [])
  (rs.filter fun r => r.issues = [], rs.filter fun r => r.issues ≠ [])

/-! ## Theorems -/

/-- The integer ceiling of `s/10` as an integer division. -/
theorem ceilDivTen (s : ℤ) : (⌈(s : ℚ) / 10⌉ : ℤ) = -((-s) / 10) := by
  set t : ℤ := -((-s) / 10) with ht
  rw [Int.ceil_eq_iff]
  constructor
  · rw [lt_div_iff₀ (by norm_num : (0 : ℚ) < 10)]
    exact_mod_cast (show (t - 1) * 10 < s by omega)
  · rw [div_le_iff₀ (by norm_num : (0 : ℚ) < 10)]
    exact_mod_cast (show s ≤ t * 10 by omega)

/-- C1: for every integer supply amount `s ≥ 0` the VAT calculator returns
the integer ceiling of `s/10`; in particular `VAT 6727 = 673`,
`VAT 133364 = 13337`, `VAT 10000 = 1000`; and a null/undefined/NaN input
(modelled as `none`) yields `0`. -/
theorem calculateVAT_spec :
    (∀ s : ℤ, 0 ≤ s → calculateVAT (some s) = ⌈(s : ℚ) / 10⌉) ∧
    calculateVAT (some 6727) = 673 ∧ calculateVAT (some 133364) = 13337 ∧
    calculateVAT (some 10000) = 1000 ∧ calculateVAT none = 0 := by
  refine ⟨fun s _ => ?_, by decide, by decide, by decide, rfl⟩
  rw [ceilDivTen]
  by_cases h0 : s = 0
  · subst h0; simp [calculateVAT]
  · simp [calculateVAT, h0]

/-- Witness for C1 at `s = 6727`. -/
theorem calculateVAT_spec_witness :
    (0 : ℤ) ≤ 6727 ∧ calculateVAT (some 6727) = ⌈((6727 : ℤ) : ℚ) / 10⌉ :=
  ⟨by norm_num, calculateVAT_spec.1 6727 (by norm_num)⟩

/-- The example row `"품명A | 10 | 5,000 | 50,000"`. -/
def c3row : List Char :=
  ['품','명','A',' ','|',' ','1','0',' ','|',' ','5',',','0','0','0',
   ' ','|',' ','5','0',',','0','0','0']

/-- C3 counterexample: parsing `"품명A | 10 | 5,000 | 50,000"` (VAT attached
afterward) does **not** yield the claimed record with a null specification —
the parser leaves the specification as the empty string, not `null`. -/
theorem parseRowExample_claim_false :
    (parseItemRow (splitToCols c3row)).map attachVAT ≠
      some ⟨['품','명','A'], none, some 10, 5000, some 50000, some 5000⟩ := by
  decide

/-- C3 amended: parsing `"품명A | 10 | 5,000 | 50,000"` (VAT attached
afterward) yields item `품명A`, the **empty-string** specification (only a
literal `"-"` is normalized to null), quantity 10, unit price 5000, supply
amount 50000 and VAT 5000. -/
theorem parseRowExample_amended :
    (parseItemRow (splitToCols c3row)).map attachVAT =
      some ⟨['품','명','A'], some [], some 10, 5000, some 50000, some 5000⟩ := by
  decide

/-- A row whose surviving columns are all purely numeric is absorbed into the
front of the queue and changes nothing else. -/
theorem cleanStep_allNumeric (st : CleanState) (line : List Char)
    (h1 : effectiveCols line ≠ [])
    (h2 : (effectiveCols line).all isNumericToken = true) :
    cleanStep st line = { st with queue := effectiveCols line ++ st.queue } := by
  unfold cleanStep
  rw [if_pos ⟨h1, h2⟩]

/-- C10: the redistribution queue is never flushed at end of input — a final
line whose surviving columns are purely numeric contributes nothing to the
kept output; its tokens are silently discarded when the function returns. -/
theorem cleanRows_trailing_numeric_discarded (rows : List (List Char))
    (line : List Char) (h1 : effectiveCols line ≠ [])
    (h2 : (effectiveCols line).all isNumericToken = true) :
    cleanRowsWithRules (rows ++ [line]) = cleanRowsWithRules rows := by
  unfold cleanRowsWithRules
  rw [List.foldl_append]
  show (cleanStep _ line).kept = _
  rw [cleanStep_allNumeric _ _ h1 h2]

/-- Witness for C10: appending the stray numeric line `"1234"` to an empty
input produces no kept rows. -/
theorem cleanRows_trailing_numeric_discarded_witness :
    effectiveCols ['1','2','3','4'] ≠ [] ∧
    (effectiveCols ['1','2','3','4']).all isNumericToken = true ∧
    cleanRowsWithRules ([] ++ [['1','2','3','4']]) = cleanRowsWithRules [] :=
  ⟨by decide, by decide,
   cleanRows_trailing_numeric_discarded [] ['1','2','3','4'] (by decide)
     (by decide)⟩

/-- A standalone all-numeric line: `"1000 | 2000 | 3000 | 4000"`. -/
def c2row1 : List Char :=
  ['1','0','0','0',' ','|',' ','2','0','0','0',' ','|',' ','3','0','0','0',
   ' ','|',' ','4','0','0','0']

/-- A following four-column non-numeric row: `"abc | def | ghi | jkl"`. -/
def c2row2 : List Char :=
  ['a','b','c',' ','|',' ','d','e','f',' ','|',' ','g','h','i',
   ' ','|',' ','j','k','l']

/-- C2 counterexample: the trailing-column swap can replace **every** column
of a kept row with queued numeric tokens, so `cleanRowsWithRules` can emit a
row consisting entirely of purely-numeric tokens. -/
theorem cleanRows_allNumeric_row_emitted :
    ∃ r ∈ cleanRowsWithRules [c2row1, c2row2],
      r ≠ [] ∧ (splitToCols r).all isNumericToken = true := by
  refine ⟨c2row1, by decide, by decide, by decide⟩

/-- C2 amended: a line whose surviving columns are all purely numeric is
absorbed into the redistribution queue and emits no kept row, and a queue
**append** never makes the consumed row all-numeric; however a trailing-column
swap that replaces every column can emit an all-numeric kept row (see the
counterexample), so the original invariant fails for the swap path. -/
theorem cleanRows_numeric_absorption :
    (∀ (st : CleanState) (line : List Char),
        effectiveCols line ≠ [] →
        (effectiveCols line).all isNumericToken = true →
        (cleanStep st line).kept = st.kept) ∧
    (∀ (q : List (List Char)) (first : Bool) (cs : List (List Char)),
        cs.all isNumericToken = false →
        nEffective cs < queueThreshold first →
        (consumeQueue q first cs).1.all isNumericToken = false) := by
  constructor
  · intro st line h1 h2
    rw [cleanStep_allNumeric st line h1 h2]
  · intro q first cs hcs hlt
    unfold consumeQueue
    by_cases hq : q = [] ∨ cs = []
    · rw [if_pos hq]; exact hcs
    · rw [if_neg hq, if_pos hlt]
      simp [List.all_append, hcs]

/-- Witness for C2 (amended): the numeric line is absorbed (no kept row), and
an append consumption of a short non-numeric row stays non-numeric. -/
theorem cleanRows_numeric_absorption_witness :
    (effectiveCols c2row1 ≠ [] ∧
      (effectiveCols c2row1).all isNumericToken = true ∧
      (cleanStep ⟨[], [], true⟩ c2row1).kept = []) ∧
    ((([['a']] : List (List Char)).all isNumericToken = false) ∧
      nEffective [['a']] < queueThreshold true ∧
      (consumeQueue [['9','9','9','9']] true
        [['a']]).1.all isNumericToken = false) :=
  ⟨⟨by decide, by decide,
    cleanRows_numeric_absorption.1 ⟨[], [], true⟩ c2row1 (by decide)
      (by decide)⟩,
   ⟨by decide, by decide,
    cleanRows_numeric_absorption.2 [['9','9','9','9']] true [['a']]
      (by decide) (by decide)⟩⟩

/-- Fold invariant principle. -/
theorem foldl_inv {α β : Type} (f : β → α → β) (P : β → Prop) (l : List α)
    (b : β) (hb : P b) (hstep : ∀ x ∈ l, ∀ acc, P acc → P (f acc x)) :
    P (l.foldl f b) := by
  induction l generalizing b with
  | nil => exact hb
  | cons x t ih =>
      exact ih (f b x) (hstep x (List.mem_cons_self x t) b hb)
        fun y hy acc hacc => hstep y (List.mem_cons_of_mem x hy) acc hacc

/-- Every stitched hit lies on an existing row. -/
theorem findStitched_row_lt (lines ks : List (List Char)) (n : ℕ) :
    ∀ h ∈ findStitchedKeywords lines ks n, h.rowIndex < lines.length := by
  intro h hm
  unfold findStitchedKeywords at hm
  simp only [List.mem_flatMap, List.mem_range, List.mem_filterMap] at hm
  obtain ⟨r, hr, i, _, s0, _, heq⟩ := hm
  split at heq
  · split at heq
    · injection heq with heq'
      rw [← heq']
      exact hr
    · cases heq
  · cases heq

/-- Every cell hit lies on an existing row. -/
theorem findCells_row_lt (lines vs : List (List Char)) :
    ∀ h ∈ findCellsByKeywords lines vs, h.rowIndex < lines.length := by
  intro h hm
  unfold findCellsByKeywords at hm
  simp only [List.mem_flatMap, List.mem_range, List.mem_filterMap] at hm
  obtain ⟨r, hr, c, _, heq⟩ := hm
  split at heq
  · injection heq with heq'
    rw [← heq']
    exact hr
  · cases heq

/-- `mapSet` entries come from the old map or are the inserted pair. -/
theorem mem_mapSet (m : List ((ℕ × ℕ × ℕ) × StitchHit)) (k : ℕ × ℕ × ℕ)
    (v : StitchHit) : ∀ e ∈ mapSet m k v, e ∈ m ∨ e = (k, v) := by
  intro e he
  unfold mapSet at he
  split at he
  · simp only [List.mem_map] at he
    obtain ⟨e', he', heq⟩ := he
    by_cases h : e'.1 = k
    · right; rw [← heq, if_pos h]
    · left; rw [← heq, if_neg h]; exact he'
  · rw [List.mem_append] at he
    rcases he with he | he
    · left; exact he
    · right; simpa using he

/-- Every merged header hit lies on an existing row. -/
theorem checkIsItHeaderLine_row_lt (lines : List (List Char)) :
    ∀ h ∈ checkIsItHeaderLine lines, h.rowIndex < lines.length := by
  intro h hm
  unfold checkIsItHeaderLine at hm
  simp only [List.mem_map] at hm
  obtain ⟨e, he, heq⟩ := hm
  have hbase :
      ∀ e ∈ ((findStitchedKeywords lines [['단', '가']] 2).foldl
        (fun m s => mapSet m (s.rowIndex, s.startCol, s.endCol) s) []),
        e.2.rowIndex < lines.length := by
    refine foldl_inv _
      (fun (m : List ((ℕ × ℕ × ℕ) × StitchHit)) =>
        ∀ e ∈ m, e.2.rowIndex < lines.length) _ _ (by simp) ?_
    intro s hs acc hacc e he
    rcases mem_mapSet acc _ _ e he with h' | h'
    · exact hacc e h'
    · rw [h']
      exact findStitched_row_lt lines _ _ s hs
  have hinv :
      ∀ e ∈ ((findCellsByKeywords lines [['단'], ['가'], ['단', '가']]).foldl
        (fun m s =>
          match getCell lines s.rowIndex s.colIndex with
          | some cell =>
              if stripWs cell = ['단', '가'] then
                mapSet m (s.rowIndex, s.colIndex, s.colIndex)
                  ⟨s.rowIndex, s.colIndex, s.colIndex, cell, ['단', '가']⟩
              else m
          | none => m)
        ((findStitchedKeywords lines [['단', '가']] 2).foldl
          (fun m s => mapSet m (s.rowIndex, s.startCol, s.endCol) s) [])),
        e.2.rowIndex < lines.length := by
    refine foldl_inv _
      (fun (m : List ((ℕ × ℕ × ℕ) × StitchHit)) =>
        ∀ e ∈ m, e.2.rowIndex < lines.length) _ _ hbase ?_
    intro s hs acc hacc e he
    rcases hget : getCell lines s.rowIndex s.colIndex with _ | cell
    · simp only [hget] at he
      exact hacc e he
    · simp only [hget] at he
      by_cases hsw : stripWs cell = ['단', '가']
      · rw [if_pos hsw] at he
        rcases mem_mapSet acc _ _ e he with h' | h'
        · exact hacc e h'
        · rw [h']
          exact findCells_row_lt lines _ s hs
      · rw [if_neg hsw] at he
        exact hacc e he
  rw [← heq]
  exact hinv e he

/-- A fold of `min` over row indices never exceeds its seed. -/
theorem foldl_min_le (t : List StitchHit) (a : ℕ) :
    t.foldl (fun a x => min a x.rowIndex) a ≤ a := by
  induction t generalizing a with
  | nil => exact le_refl a
  | cons b t ih => exact le_trans (ih (min a b.rowIndex)) (min_le_left _ _)

/-- The detected header index is an existing row index. -/
theorem headerIndexOf_lt (lines : List (List Char)) (h : ℕ)
    (hh : headerIndexOf lines = some h) : h < lines.length := by
  unfold headerIndexOf at hh
  rcases hhd : checkIsItHeaderLine lines with _ | ⟨h0, t⟩
  · rw [hhd] at hh; cases hh
  · rw [hhd] at hh
    injection hh with hh'
    have h0lt : h0.rowIndex < lines.length :=
      checkIsItHeaderLine_row_lt lines h0 (by rw [hhd]; exact List.mem_cons_self h0 t)
    rw [← hh']
    exact lt_of_le_of_lt (foldl_min_le t h0.rowIndex) h0lt

/-- C6: with no header hit the slicer returns the empty slice (start, end and
rows all empty); with a header but no footer the slice is every line after
the header row through end-of-input. -/
theorem slice_header_footer_fallbacks (lines : List (List Char)) :
    (checkIsItHeaderLine lines = [] →
      sliceRowsBetweenHeaderFooter lines = ⟨none, none, []⟩) ∧
    (∀ h, headerIndexOf lines = some h → checkIsItFooterLine lines = none →
      sliceRowsBetweenHeaderFooter lines =
        ⟨some (h + 1), none, lines.drop (h + 1)⟩) := by
  constructor
  · intro hh
    unfold sliceRowsBetweenHeaderFooter
    rw [show headerIndexOf lines = none by unfold headerIndexOf; rw [hh]]
  · intro h hh hf
    unfold sliceRowsBetweenHeaderFooter
    rw [hh, hf]

/-- Witness for C6: a header-less input yields the empty slice; a header-only
input slices to end-of-input. -/
theorem slice_header_footer_fallbacks_witness :
    (checkIsItHeaderLine [[('x' : Char)]] = [] ∧
      sliceRowsBetweenHeaderFooter [['x']] = ⟨none, none, []⟩) ∧
    (headerIndexOf [['단', '가'], ['y']] = some 0 ∧
      checkIsItFooterLine [['단', '가'], ['y']] = none ∧
      sliceRowsBetweenHeaderFooter [['단', '가'], ['y']] =
        ⟨some (0 + 1), none, [['단', '가'], ['y']].drop (0 + 1)⟩) :=
  ⟨⟨by decide, (slice_header_footer_fallbacks [['x']]).1 (by decide)⟩,
   ⟨by decide, by decide,
    (slice_header_footer_fallbacks [['단', '가'], ['y']]).2 0 (by decide)
      (by decide)⟩⟩

/-- C5: with both a header and a footer the slice starts immediately after
the header row, and the end index before clamping is the footer row index
minus 1 for a banner marker and minus 2 for the assignee fallback. -/
theorem slice_offsets (lines : List (List Char)) (h : ℕ) (f : FooterHit)
    (hh : headerIndexOf lines = some h)
    (hf : checkIsItFooterLine lines = some f) :
    (sliceRowsBetweenHeaderFooter lines).start = some (h + 1) ∧
    (sliceRowsBetweenHeaderFooter lines).stop =
      some (max (min (footerEndCut f) ((lines.length : ℤ) - 1)) (-1)) ∧
    (f.kind = FooterKind.marker → footerEndCut f = (f.rowIndex : ℤ) - 1) ∧
    (f.kind = FooterKind.assignee → footerEndCut f = (f.rowIndex : ℤ) - 2) := by
  have hlt := headerIndexOf_lt lines h hh
  unfold sliceRowsBetweenHeaderFooter
  rw [hh, hf]
  refine ⟨?_, rfl, ?_, ?_⟩
  · show some (min (h + 1) lines.length) = some (h + 1)
    rw [Nat.min_eq_left (by omega)]
  · intro hk; simp [footerEndCut, hk]
  · intro hk; simp [footerEndCut, hk]

/-- Header + banner-footer example lines for the C5 witness. -/
def w5lines : List (List Char) :=
  [['단', '가'], ['a'], ['=', '=', '이', '하', '여', '백', '=', '=']]

/-- The banner footer hit of `w5lines`. -/
def w5footer : FooterHit :=
  ⟨.marker, 2, none, ['=', '=', '이', '하', '여', '백', '=', '=']⟩

/-- Witness for C5 on `w5lines`. -/
theorem slice_offsets_witness :
    headerIndexOf w5lines = some 0 ∧
    checkIsItFooterLine w5lines = some w5footer ∧
    ((sliceRowsBetweenHeaderFooter w5lines).start = some (0 + 1) ∧
     (sliceRowsBetweenHeaderFooter w5lines).stop =
       some (max (min (footerEndCut w5footer) ((w5lines.length : ℤ) - 1)) (-1)) ∧
     (w5footer.kind = FooterKind.marker →
       footerEndCut w5footer = (w5footer.rowIndex : ℤ) - 1) ∧
     (w5footer.kind = FooterKind.assignee →
       footerEndCut w5footer = (w5footer.rowIndex : ℤ) - 2)) :=
  ⟨by decide, by decide, slice_offsets w5lines 0 w5footer (by decide) (by decide)⟩

/-- Every money token collected by the row parser has value ≥ 1000. -/
theorem moneyList_ge (cols : List (List Char)) (s : ℕ) :
    ∀ x ∈ moneyList cols s, 1000 ≤ x.2 := by
  intro x hx
  unfold moneyList at hx
  simp only [List.mem_filterMap, List.mem_range] at hx
  obtain ⟨i, _, heq⟩ := hx
  split at heq
  · split at heq
    · split at heq
      · injection heq with h'
        rw [← h']
        assumption
      · cases heq
    · cases heq
  · cases heq

/-- The left element of an adjacent pair belongs to the list. -/
theorem pickAdjacent_mem (l : List (ℕ × ℕ)) (a b : ℕ × ℕ)
    (h : pickAdjacent l = some (a, b)) : a ∈ l := by
  induction l with
  | nil => cases h
  | cons x t ih =>
      cases t with
      | nil => cases h
      | cons y t' =>
          unfold pickAdjacent at h
          split at h
          · injection h with h'
            have hx : x = a := congrArg Prod.fst h'
            rw [← hx]
            exact List.mem_cons_self x _
          · exact List.mem_cons_of_mem x (ih h)

/-- The selected unit-price token belongs to the money list. -/
theorem pickMoney_mem (money : List (ℕ × ℕ)) (up : ℕ × ℕ)
    (sa : Option (ℕ × ℕ)) (h : pickMoney money = some (up, sa)) :
    up ∈ money := by
  unfold pickMoney at h
  rcases hpa : pickAdjacent money with _ | ⟨a, b⟩
  · rw [hpa] at h
    rcases money with _ | ⟨m0, rest⟩
    · cases h
    · injection h with h'
      have hx : m0 = up := congrArg Prod.fst h'
      rw [← hx]
      exact List.mem_cons_self m0 _
  · rw [hpa] at h
    injection h with h'
    have hx : a = up := congrArg Prod.fst h'
    rw [← hx]
    exact pickAdjacent_mem money a b hpa

/-- An accepted row's unit price comes from the money list. -/
theorem parseItemRowRest_unitPrice (cols : List (List Char))
    (item spec0 : List Char) (it : ParsedItem)
    (h : parseItemRowRest cols item spec0 = some it) :
    1000 ≤ it.unitPrice := by
  simp only [parseItemRowRest] at h
  rcases hpk : pickMoney (moneyList cols
      (moneyStart (quantityPick (quantityCandidates cols)))) with _ | ⟨up, sa⟩
  · rw [hpk] at h
    cases h
  · simp only [hpk] at h
    injection h with h'
    have hup : it.unitPrice = up.2 := by rw [← h']
    rw [hup]
    exact moneyList_ge cols _ up (pickMoney_mem _ up sa hpk)

/-- C4: the row parser returns either `none` (row rejected) or an item whose
unit price is present and ≥ 1000; consequently every item emitted by
`parseItemsFromRows` has unit price ≥ 1000. -/
theorem parseItemRow_unitPrice_ge :
    (∀ cols it, parseItemRow cols = some it → 1000 ≤ it.unitPrice) ∧
    (∀ rows it, it ∈ parseItemsFromRows rows → 1000 ≤ it.unitPrice) := by
  have h1 : ∀ cols it, parseItemRow cols = some it → 1000 ≤ it.unitPrice := by
    intro cols it h
    unfold parseItemRow at h
    rcases hip : itemSpecPhase cols with _ | ⟨item, spec0⟩
    · rw [hip] at h
      cases h
    · simp only [hip] at h
      exact parseItemRowRest_unitPrice cols item spec0 it h
  refine ⟨h1, ?_⟩
  intro rows it hmem
  unfold parseItemsFromRows at hmem
  simp only [List.mem_filterMap] at hmem
  obtain ⟨line, _, hline⟩ := hmem
  exact h1 _ it hline

/-- Columns of the C4 witness row `"가 | 1000 | 2000"`. -/
def w4cols : List (List Char) := [['가'], ['1','0','0','0'], ['2','0','0','0']]

/-- The parse of `w4cols`. -/
def w4item : ParsedItem :=
  ⟨['가'], some ['1','0','0','0'], none, 1000, some 2000⟩

/-- Witness for C4 on `w4cols`. -/
theorem parseItemRow_unitPrice_ge_witness :
    parseItemRow w4cols = some w4item ∧ 1000 ≤ w4item.unitPrice :=
  ⟨by decide, parseItemRow_unitPrice_ge.1 w4cols w4item (by decide)⟩

/-- The C8 counterexample row `"1000 | 2 | 3 | 4"`. -/
def c8row : List Char :=
  ['1','0','0','0',' ','|',' ','2',' ','|',' ','3',' ','|',' ','4']

/-- C8 counterexample: the missing-item check is a **third** immediate
return.  On `"1000 | 2 | 3 | 4"` the money-shortage issue is applicable
(only one money token, fewer than 2) yet the produced record carries only the
missing-item issue — the validator did not continue to collect it, refuting
the claim that only the column-count and money-count checks return
immediately. -/
theorem validateRow_three_early_returns :
    (validateRowSchema [c8row]).2.map (·.issues) = [[Issue.missingItem]] ∧
    (schemaMoneyTokens (splitToCols c8row)).length < 2 :=
  ⟨by decide, by decide⟩

/-- `firstColSat` only returns values satisfying the predicate. -/
theorem firstColSat_some (cols : List (List Char)) (lo hi : ℕ)
    (p : List Char → Bool) (x : ℕ × List Char)
    (h : firstColSat cols lo hi p = some x) : p x.2 = true := by
  unfold firstColSat at h
  obtain ⟨i, _, hi⟩ := List.exists_of_findSome?_eq_some h
  split at hi
  · injection hi with h'
    rw [← h']
    assumption
  · cases hi

/-- A valid item value is non-empty. -/
theorem isValidItem_ne_nil (v : List Char) (h : isValidItem v = true) :
    v ≠ [] := by
  intro hv
  rw [hv] at h
  simp [isValidItem] at h

/-- A valid quantity value is non-empty. -/
theorem isValidQuantity_ne_nil (v : List Char)
    (h : isValidQuantity v = true) : v ≠ [] := by
  intro hv
  rw [hv] at h
  simp [isValidQuantity] at h

/-- A valid money value is non-empty. -/
theorem isValidMoney_ne_nil (v : List Char) (h : isValidMoney v = true) :
    v ≠ [] := by
  intro hv
  rw [hv] at h
  simp [isValidMoney] at h

/-- Every collected money token is a valid money value. -/
theorem schemaMoneyTokens_valid (cols : List (List Char)) :
    ∀ x ∈ schemaMoneyTokens cols, isValidMoney x.2 = true := by
  intro x hx
  unfold schemaMoneyTokens at hx
  simp only [List.mem_filterMap, List.mem_range] at hx
  obtain ⟨i, _, heq⟩ := hx
  split at heq
  · injection heq with h'
    rw [← h']
    assumption
  · cases heq

/-- A non-empty string is not JS-falsy. -/
theorem jsFalsyStr_some_false (v : List Char) (h : v ≠ []) :
    jsFalsyStr (some v) = false := by
  simp [jsFalsyStr, h]

/-- C8 amended: the validator has exactly **three** immediate returns —
fewer than 4 columns, no item-like column, and fewer than 2 money tokens;
past those, the remaining failure reasons all accumulate (a missing quantity
contributes both its search issue and its NOT-NULL issue, and the other
NOT-NULL checks cannot fire); a row is classified valid iff its issues list
is empty. -/
theorem validateRow_characterization :
    (∀ (index : ℕ) (row : List Char), (splitToCols row).length < 4 →
        (validateRow index row).issues =
          [Issue.insufficientCols (splitToCols row).length]) ∧
    (∀ (index : ℕ) (row : List Char), 4 ≤ (splitToCols row).length →
        schemaItemCol (splitToCols row) = none →
        (validateRow index row).issues = [Issue.missingItem]) ∧
    (∀ (index : ℕ) (row : List Char) (ic : ℕ × List Char),
        4 ≤ (splitToCols row).length →
        schemaItemCol (splitToCols row) = some ic →
        (schemaMoneyTokens (splitToCols row)).length < 2 →
        (validateRow index row).issues =
          [Issue.missingMoney (schemaMoneyTokens (splitToCols row)).length]) ∧
    (∀ (index : ℕ) (row : List Char) (ic : ℕ × List Char),
        4 ≤ (splitToCols row).length →
        schemaItemCol (splitToCols row) = some ic →
        2 ≤ (schemaMoneyTokens (splitToCols row)).length →
        (validateRow index row).issues =
          (if firstColSat (splitToCols row) (ic.1 + 1)
              ((schemaMoneyTokens (splitToCols row)).getD 0 (0, [])).1
              isValidQuantity = none
           then [Issue.missingQuantity, Issue.quantityNull] else [])) ∧
    (∀ rows, (∀ r ∈ (validateRowSchema rows).1, r.issues = []) ∧
        (∀ r ∈ (validateRowSchema rows).2, r.issues ≠ [])) := by
  refine ⟨?_, ?_, ?_, ?_, ?_⟩
  · intro index row hlt
    simp only [validateRow]
    rw [if_pos hlt]
  · intro index row hge hic
    simp only [validateRow]
    rw [if_neg (by omega)]
    simp only [hic]
  · intro index row ic hge hic hm
    simp only [validateRow]
    rw [if_neg (by omega)]
    simp only [hic]
    rw [if_pos hm]
  · intro index row ic hge hic hm
    simp only [validateRow]
    rw [if_neg (by omega)]
    simp only [hic]
    rw [if_neg (by omega)]
    have hicn : ic.2 ≠ [] :=
      isValidItem_ne_nil _ (firstColSat_some _ _ _ _ _ hic)
    rcases hmt : schemaMoneyTokens (splitToCols row) with _ | ⟨a, rest⟩
    · rw [hmt] at hm; simp at hm
    rcases rest with _ | ⟨b, rest'⟩
    · rw [hmt] at hm; simp at hm
    have han : a.2 ≠ [] :=
      isValidMoney_ne_nil _
        (schemaMoneyTokens_valid _ a (by rw [hmt]; exact List.mem_cons_self a _))
    have hbn : b.2 ≠ [] :=
      isValidMoney_ne_nil _
        (schemaMoneyTokens_valid _ b
          (by rw [hmt]; exact List.mem_cons_of_mem a (List.mem_cons_self b _)))
    simp only [List.getD_cons_zero, List.getD_cons_succ]
    by_cases hqc0 :
        firstColSat (splitToCols row) (ic.1 + 1) a.1 isValidQuantity = none
    · simp only [hqc0]
      simp [jsFalsyStr, hicn, han, hbn]
    · obtain ⟨qc, hqc⟩ := Option.ne_none_iff_exists'.mp hqc0
      have hqn : qc.2 ≠ [] :=
        isValidQuantity_ne_nil _ (firstColSat_some _ _ _ _ _ hqc)
      simp only [hqc]
      simp [jsFalsyStr, hicn, han, hbn, hqn]
  · intro rows
    constructor <;> intro r hr
    · simp only [validateRowSchema] at hr
      simpa using (List.mem_filter.mp hr).2
    · simp only [validateRowSchema] at hr
      simpa using (List.mem_filter.mp hr).2

/-- The C8 witness row `"가 | 2 | 1000 | 2000"`. -/
def c8wrow : List Char :=
  ['가',' ','|',' ','2',' ','|',' ','1','0','0','0',' ','|',' ','2','0','0','0']

/-- Witness for C8 (amended) on `c8wrow`, a row that passes every check. -/
theorem validateRow_characterization_witness :
    4 ≤ (splitToCols c8wrow).length ∧
    schemaItemCol (splitToCols c8wrow) = some (0, ['가']) ∧
    2 ≤ (schemaMoneyTokens (splitToCols c8wrow)).length ∧
    (validateRow 0 c8wrow).issues =
      (if firstColSat (splitToCols c8wrow) ((0, ['가']).1 + 1)
          ((schemaMoneyTokens (splitToCols c8wrow)).getD 0 (0, [])).1
          isValidQuantity = none
       then [Issue.missingQuantity, Issue.quantityNull] else []) :=
  ⟨by decide, by decide, by decide,
   validateRow_characterization.2.2.2.1 0 c8wrow (0, ['가']) (by decide)
     (by decide) (by decide)⟩

/-- The inserted pair is in the updated map. -/
theorem mapSet_mem_self (m : List ((ℕ × ℕ × ℕ) × StitchHit))
    (k : ℕ × ℕ × ℕ) (v : StitchHit) : (k, v) ∈ mapSet m k v := by
  unfold mapSet
  split
  · next h =>
      obtain ⟨e, he, hek⟩ := List.any_eq_true.mp h
      refine List.mem_map.mpr ⟨e, he, ?_⟩
      rw [if_pos (of_decide_eq_true hek)]
  · exact List.mem_append_right _ (List.mem_singleton.mpr rfl)

/-- An entry survives a `mapSet` unless it is overwritten by an equal
value. -/
theorem mapSet_mem_preserve (m : List ((ℕ × ℕ × ℕ) × StitchHit))
    (k0 k : ℕ × ℕ × ℕ) (v0 v : StitchHit) (h : (k0, v0) ∈ m)
    (hcase : k0 = k → v0 = v) : (k0, v0) ∈ mapSet m k v := by
  unfold mapSet
  split
  · refine List.mem_map.mpr ⟨(k0, v0), h, ?_⟩
    by_cases hk : k0 = k
    · rw [if_pos (by simpa using hk), ← hk, ← hcase hk]
    · rw [if_neg (by simpa using hk)]
  · exact List.mem_append_left _ h

/-- After folding `mapSet` over stitched hits, a pair whose key's hits in the
list all equal `h0` (and which is already present or occurs in the list) is in
the final map. -/
theorem foldl_stitch_mem (l : List StitchHit) (h0 : StitchHit)
    (m : List ((ℕ × ℕ × ℕ) × StitchHit))
    (hstart : ((h0.rowIndex, h0.startCol, h0.endCol), h0) ∈ m ∨ h0 ∈ l)
    (huniq : ∀ h' ∈ l,
      (h'.rowIndex, h'.startCol, h'.endCol) =
        (h0.rowIndex, h0.startCol, h0.endCol) → h' = h0) :
    ((h0.rowIndex, h0.startCol, h0.endCol), h0) ∈
      l.foldl (fun m s => mapSet m (s.rowIndex, s.startCol, s.endCol) s) m := by
  induction l generalizing m with
  | nil =>
      rcases hstart with h | h
      · exact h
      · cases h
  | cons s t ih =>
      apply ih
      · rcases hstart with h | h
        · left
          refine mapSet_mem_preserve _ _ _ _ _ h fun hk => ?_
          exact (huniq s (List.mem_cons_self s t) hk.symm).symm
        · rcases List.mem_cons.mp h with h | h
          · left
            rw [h]
            exact mapSet_mem_self m _ s
          · right; exact h
      · intro h' hh' hk
        exact huniq h' (List.mem_cons_of_mem s hh') hk
  
/-- The seeds pass only writes keys of the form `(r, c, c)`, so an entry
whose key has distinct start and end columns survives. -/
theorem foldl_seeds_mem (lines : List (List Char)) (seeds : List CellHit)
    (m : List ((ℕ × ℕ × ℕ) × StitchHit)) (k0 : ℕ × ℕ × ℕ) (v0 : StitchHit)
    (h : (k0, v0) ∈ m) (hk : k0.2.1 ≠ k0.2.2) :
    (k0, v0) ∈
      seeds.foldl (fun m s =>
        match getCell lines s.rowIndex s.colIndex with
        | some cell =>
            if stripWs cell = ['단', '가'] then
              mapSet m (s.rowIndex, s.colIndex, s.colIndex)
                ⟨s.rowIndex, s.colIndex, s.colIndex, cell, ['단', '가']⟩
            else m
        | none => m) m := by
  induction seeds generalizing m with
  | nil => exact h
  | cons s t ih =>
      apply ih
      rcases hget : getCell lines s.rowIndex s.colIndex with _ | cell
      · simp only [hget]
        exact h
      · simp only [hget]
        by_cases hsw : stripWs cell = ['단', '가']
        · rw [if_pos hsw]
          refine mapSet_mem_preserve _ _ _ _ _ h fun hkk => ?_
          exact absurd (by rw [hkk]) hk
        · rw [if_neg hsw]
          exact h

/-- Adjacent columns `i` and `i+1` produce exactly one pair under
drop/take. -/
theorem drop_take_pair {α : Type} (l : List α) (i : ℕ) (d : α)
    (h : i + 1 < l.length) :
    (l.drop i).take 2 = [l.getD i d, l.getD (i + 1) d] := by
  have hi : i < l.length := by omega
  rw [List.getD_eq_getElem l d hi, List.getD_eq_getElem l d h]
  rw [List.drop_eq_getElem_cons hi, List.drop_eq_getElem_cons h]
  rfl

/-- Extensionality for stitched hits. -/
theorem stitchHit_ext (a b : StitchHit) (h1 : a.rowIndex = b.rowIndex)
    (h2 : a.startCol = b.startCol) (h3 : a.endCol = b.endCol)
    (h4 : a.stitched = b.stitched) (h5 : a.normalized = b.normalized) :
    a = b := by
  cases a
  cases b
  congr 1

/-- Membership characterization of stitched hits (for the `단가` search with
span ≤ 2). -/
theorem findStitched_mem_char (lines : List (List Char)) (h : StitchHit)
    (hm : h ∈ findStitchedKeywords lines [['단', '가']] 2) :
    ∃ s0 < 2, h.endCol = h.startCol + s0 ∧
      h.stitched = joinSpace
        (((splitToCols (lines.getD h.rowIndex [])).drop h.startCol).take
          (s0 + 1)) ∧
      h.normalized = stripWs h.stitched := by
  unfold findStitchedKeywords at hm
  simp only [List.mem_flatMap, List.mem_range, List.mem_filterMap] at hm
  obtain ⟨r, _, i, _, s0, hs0, heq⟩ := hm
  split at heq
  · split at heq
    · injection heq with heq'
      refine ⟨s0, hs0, ?_⟩
      rw [← heq']
      exact ⟨rfl, rfl, rfl⟩
    · cases heq
  · cases heq

/-- The stitched hit for an adjacent `단가` pair is found. -/
theorem stitch_pair_mem (lines : List (List Char)) (r i : ℕ)
    (hr : r < lines.length)
    (hi : i + 1 < (splitToCols (lines.getD r [])).length)
    (hs : stripWs ((splitToCols (lines.getD r [])).getD i [] ++
      ' ' :: (splitToCols (lines.getD r [])).getD (i + 1) []) = ['단', '가']) :
    (⟨r, i, i + 1,
      (splitToCols (lines.getD r [])).getD i [] ++
        ' ' :: (splitToCols (lines.getD r [])).getD (i + 1) [],
      ['단', '가']⟩ : StitchHit) ∈ findStitchedKeywords lines [['단', '가']] 2 := by
  have hpair := drop_take_pair (splitToCols (lines.getD r [])) i [] hi
  have hjoin : joinSpace (((splitToCols (lines.getD r [])).drop i).take 2) =
      (splitToCols (lines.getD r [])).getD i [] ++
        ' ' :: (splitToCols (lines.getD r [])).getD (i + 1) [] := by
    rw [hpair]; rfl
  unfold findStitchedKeywords
  simp only [List.mem_flatMap, List.mem_range, List.mem_filterMap]
  refine ⟨r, hr, i, by omega, 1, by omega, ?_⟩
  rw [if_pos hi, hjoin, if_pos (by rw [hs]; exact List.mem_cons_self _ _)]
  rw [hs]

/-- C9: whenever a row has two adjacent columns whose whitespace-stripped
concatenation is the unit-price keyword `단가` (e.g. the cells `단` and `가`
side by side), the header detector reports a hit spanning both columns
(`endCol = startCol + 1`) with normalized text `단가`. -/
theorem header_stitched_span (lines : List (List Char)) (r i : ℕ)
    (hr : r < lines.length)
    (hi : i + 1 < (splitToCols (lines.getD r [])).length)
    (hs : stripWs ((splitToCols (lines.getD r [])).getD i [] ++
      ' ' :: (splitToCols (lines.getD r [])).getD (i + 1) []) = ['단', '가']) :
    ∃ hit ∈ checkIsItHeaderLine lines,
      hit.rowIndex = r ∧ hit.startCol = i ∧ hit.endCol = i + 1 ∧
      hit.normalized = ['단', '가'] := by
  have hpair := drop_take_pair (splitToCols (lines.getD r [])) i [] hi
  refine ⟨⟨r, i, i + 1,
    (splitToCols (lines.getD r [])).getD i [] ++
      ' ' :: (splitToCols (lines.getD r [])).getD (i + 1) [],
    ['단', '가']⟩, ?_, rfl, rfl, rfl, rfl⟩
  simp only [checkIsItHeaderLine]
  refine List.mem_map_of_mem (·.2)
    (foldl_seeds_mem lines _ _ (r, i, i + 1) _ ?_ (by simp))
  exact foldl_stitch_mem _ _ []
    (Or.inr (stitch_pair_mem lines r i hr hi hs))
    (by
      intro h' hh' hk
      obtain ⟨s0, hs0, hend, hstitch, hnorm⟩ := findStitched_mem_char lines h' hh'
      have hkr : h'.rowIndex = r := congrArg (·.1) hk
      have hks : h'.startCol = i := congrArg (·.2.1) hk
      have hke : h'.endCol = i + 1 := congrArg (·.2.2) hk
      have hs0' : s0 = 1 := by omega
      have hst : h'.stitched =
          (splitToCols (lines.getD r [])).getD i [] ++
            ' ' :: (splitToCols (lines.getD r [])).getD (i + 1) [] := by
        rw [hstitch, hks, hkr, hs0', hpair]
        rfl
      refine stitchHit_ext h' _ hkr hks hke hst ?_
      rw [hnorm, hst]
      exact hs)

/-- C9 witness lines: one row `"단 | 가"`. -/
def w9lines : List (List Char) := [['단', ' ', '|', ' ', '가']]

/-- Witness for C9 on `w9lines`. -/
theorem header_stitched_span_witness :
    0 < w9lines.length ∧
    0 + 1 < (splitToCols (w9lines.getD 0 [])).length ∧
    stripWs ((splitToCols (w9lines.getD 0 [])).getD 0 [] ++
      ' ' :: (splitToCols (w9lines.getD 0 [])).getD (0 + 1) []) = ['단', '가'] ∧
    (∃ hit ∈ checkIsItHeaderLine w9lines,
      hit.rowIndex = 0 ∧ hit.startCol = 0 ∧ hit.endCol = 0 + 1 ∧
      hit.normalized = ['단', '가']) :=
  ⟨by decide, by decide, by decide,
   header_stitched_span w9lines 0 0 (by decide) (by decide) (by decide)⟩

/-! ### Toolbox for the `cleanOcrText` idempotence proof -/

/-- A chain restricted to a suffix. -/
theorem chainSuffix {R : Char → Char → Prop} {l l' : List Char}
    (h : List.Chain' R l) (hs : l' <:+ l) : List.Chain' R l' := by
  obtain ⟨a, rfl⟩ := hs
  exact (List.chain'_append.mp h).2.1

/-- A chain restricted to a prefix of the list. -/
theorem chainPrefix {R : Char → Char → Prop} {l l' : List Char}
    (h : List.Chain' R l) (hp : l' <+: l) : List.Chain' R l' := by
  obtain ⟨a, rfl⟩ := hp
  exact (List.chain'_append.mp h).1

/-- The head surviving `dropWhile` fails the predicate. -/
theorem dropWhile_head_not (p : Char → Bool) (l : List Char) :
    ∀ a ∈ (l.dropWhile p).head?, p a = false := by
  induction l with
  | nil => simp
  | cons c rest ih =>
      by_cases h : p c
      · simpa [List.dropWhile_cons, h] using ih
      · simp only [List.dropWhile_cons, if_neg h]
        intro a ha
        simp only [List.head?_cons, Option.mem_def, Option.some.injEq] at ha
        rw [← ha]
        simpa using h

/-- `dropWhile` is the identity when the head already fails the predicate. -/
theorem dropWhile_eq_self (p : Char → Bool) (l : List Char)
    (h : ∀ a ∈ l.head?, p a = false) : l.dropWhile p = l := by
  cases l with
  | nil => rfl
  | cons c rest => simp [List.dropWhile_cons, h c (by simp)]

/-- The trimmed string is a prefix of the whitespace-dropped string. -/
theorem trimStr_isPre (l : List Char) : trimStr l <+: l.dropWhile jsWs := by
  have hsuf : ((l.dropWhile jsWs).reverse).dropWhile jsWs <:+
      (l.dropWhile jsWs).reverse := List.dropWhile_suffix jsWs
  have h2 := List.reverse_prefix.mpr hsuf
  rw [List.reverse_reverse] at h2
  exact h2

/-- Characters of the trimmed string come from the original. -/
theorem trimStr_mem (l : List Char) : ∀ a ∈ trimStr l, a ∈ l := by
  intro a ha
  unfold trimStr at ha
  rw [List.mem_reverse] at ha
  have h1 := (List.dropWhile_suffix jsWs).subset ha
  rw [List.mem_reverse] at h1
  exact (List.dropWhile_suffix jsWs).subset h1

/-- Trimming preserves chains. -/
theorem trimStr_chain {R : Char → Char → Prop} {l : List Char}
    (h : List.Chain' R l) : List.Chain' R (trimStr l) :=
  chainPrefix (chainSuffix h (List.dropWhile_suffix jsWs)) (trimStr_isPre l)

/-- The head of a trimmed string is not whitespace. -/
theorem trimStr_head (l : List Char) :
    ∀ a ∈ (trimStr l).head?, jsWs a = false := by
  intro a ha
  rcases htl : trimStr l with _ | ⟨c, t⟩
  · rw [htl] at ha; cases ha
  · rw [htl] at ha
    simp only [List.head?_cons, Option.mem_def, Option.some.injEq] at ha
    obtain ⟨r, hr⟩ := trimStr_isPre l
    rw [htl] at hr
    have hh : (l.dropWhile jsWs).head? = some c := by
      rw [← hr]; rfl
    rw [← ha]
    exact dropWhile_head_not jsWs l c hh

/-- The last character of a trimmed string is not whitespace. -/
theorem trimStr_last (l : List Char) :
    ∀ a ∈ (trimStr l).getLast?, jsWs a = false := by
  intro a ha
  unfold trimStr at ha
  rw [List.getLast?_reverse] at ha
  exact dropWhile_head_not jsWs _ a ha

/-- Trimming is idempotent. -/
theorem trimStr_idem (l : List Char) : trimStr (trimStr l) = trimStr l := by
  have h1 : (trimStr l).dropWhile jsWs = trimStr l :=
    dropWhile_eq_self _ _ (trimStr_head l)
  have h2 : (trimStr l).reverse.dropWhile jsWs = (trimStr l).reverse := by
    apply dropWhile_eq_self
    intro a ha
    rw [List.head?_reverse] at ha
    exact trimStr_last l a ha
  show (((trimStr l).dropWhile jsWs).reverse.dropWhile jsWs).reverse = trimStr l
  rw [h1, h2, List.reverse_reverse]

/-- No adjacent pair `p, q` occurs in the list. -/
def noPair (p q : Char) (l : List Char) : Prop :=
  List.Chain' (fun a b => ¬ (a = p ∧ b = q)) l

/-- Head of `replCR`: unchanged or the replacement LF. -/
theorem replCR_head (l : List Char) :
    (replCR l).head? = l.head? ∨ (replCR l).head? = some '\n' := by
  cases l with
  | nil => left; rfl
  | cons c rest =>
      by_cases h : c = '\r'
      · right; simp [replCR, h]
      · left; simp [replCR, h]

/-- Head of `replTab`: unchanged or the replacement space. -/
theorem replTab_head (l : List Char) :
    (replTab l).head? = l.head? ∨ (replTab l).head? = some ' ' := by
  cases l with
  | nil => left; rfl
  | cons c rest =>
      by_cases h : c = '\t'
      · right; simp [replTab, h]
      · left; simp [replTab, h]

/-- Head of `replLitN`: unchanged or the replacement LF. -/
theorem replLitN_head (l : List Char) :
    (replLitN l).head? = l.head? ∨ (replLitN l).head? = some '\n' := by
  rcases l with _ | ⟨c, _ | ⟨d, rest⟩⟩
  · left; rfl
  · left; rfl
  · by_cases h : c = '\\' ∧ d = 'n'
    · right; simp [replLitN, h]
    · left; simp [replLitN, h]

/-- Head of `replLitT`: unchanged or the replacement TAB. -/
theorem replLitT_head (l : List Char) :
    (replLitT l).head? = l.head? ∨ (replLitT l).head? = some '\t' := by
  rcases l with _ | ⟨c, _ | ⟨d, rest⟩⟩
  · left; rfl
  · left; rfl
  · by_cases h : c = '\\' ∧ d = 't'
    · right; simp [replLitT, h]
    · left; simp [replLitT, h]

/-- Head of `replCRLF`: unchanged or the replacement LF. -/
theorem replCRLF_head (l : List Char) :
    (replCRLF l).head? = l.head? ∨ (replCRLF l).head? = some '\n' := by
  rcases l with _ | ⟨c, _ | ⟨d, rest⟩⟩
  · left; rfl
  · left; rfl
  · by_cases h : c = '\r' ∧ d = '\n'
    · right; simp [replCRLF, h]
    · left; simp [replCRLF, h]

/-- Head of `replLitCRLF`: unchanged or the replacement LF. -/
theorem replLitCRLF_head (l : List Char) :
    (replLitCRLF l).head? = l.head? ∨ (replLitCRLF l).head? = some '\n' := by
  rcases l with _ | ⟨c1, _ | ⟨c2, _ | ⟨c3, _ | ⟨c4, rest⟩⟩⟩⟩
  · left; rfl
  · left; rfl
  · left; rfl
  · left; rfl
  · by_cases h : c1 = '\\' ∧ c2 = 'r' ∧ c3 = '\\' ∧ c4 = 'n'
    · right; simp [replLitCRLF, h]
    · left; simp [replLitCRLF, h]

/-- `replCR` preserves chains whose relation tolerates an inserted LF. -/
theorem replCR_chain {R : Char → Char → Prop} (h1 : ∀ x, R x '\n')
    (h2 : ∀ y, R '\n' y) {l : List Char} (h : List.Chain' R l) :
    List.Chain' R (replCR l) := by
  induction l with
  | nil => simp [replCR]
  | cons c rest ih =>
      have hrest := (List.chain'_cons'.mp h).2
      by_cases hc : c = '\r'
      · simp only [replCR, if_pos hc]
        exact List.chain'_cons'.mpr ⟨fun y _ => h2 y, ih hrest⟩
      · simp only [replCR, if_neg hc]
        refine List.chain'_cons'.mpr ⟨?_, ih hrest⟩
        intro y hy
        rcases replCR_head rest with hh | hh
        · rw [hh] at hy
          exact (List.chain'_cons'.mp h).1 y hy
        · rw [hh] at hy
          simp only [Option.mem_def, Option.some.injEq] at hy
          rw [← hy]
          exact h1 c

/-- `replTab` preserves chains whose relation tolerates the inserted
`" | "`. -/
theorem replTab_chain {R : Char → Char → Prop} (h1 : ∀ x, R x ' ')
    (h2 : ∀ y, R ' ' y) {l : List Char} (h : List.Chain' R l) :
    List.Chain' R (replTab l) := by
  induction l with
  | nil => simp [replTab]
  | cons c rest ih =>
      have hrest := (List.chain'_cons'.mp h).2
      by_cases hc : c = '\t'
      · simp only [replTab, if_pos hc]
        refine List.chain'_cons'.mpr ⟨fun y hy => ?_, ?_⟩
        · simp only [List.head?_cons, Option.mem_def, Option.some.injEq] at hy
          rw [← hy]; exact h2 '|'
        · refine List.chain'_cons'.mpr ⟨fun y hy => ?_, ?_⟩
          · simp only [List.head?_cons, Option.mem_def, Option.some.injEq] at hy
            rw [← hy]; exact h1 '|'
          · exact List.chain'_cons'.mpr ⟨fun y _ => h2 y, ih hrest⟩
      · simp only [replTab, if_neg hc]
        refine List.chain'_cons'.mpr ⟨?_, ih hrest⟩
        intro y hy
        rcases replTab_head rest with hh | hh
        · rw [hh] at hy
          exact (List.chain'_cons'.mp h).1 y hy
        · rw [hh] at hy
          simp only [Option.mem_def, Option.some.injEq] at hy
          rw [← hy]
          exact h1 c

/-- `replLitN` preserves chains whose relation tolerates an inserted LF. -/
theorem replLitN_chain {R : Char → Char → Prop} (h1 : ∀ x, R x '\n')
    (h2 : ∀ y, R '\n' y) : ∀ {l : List Char}, List.Chain' R l →
    List.Chain' R (replLitN l) := by
  intro l
  induction l using replLitN.induct with
  | case1 c d rest hcond ih =>
      intro h
      simp only [replLitN, if_pos hcond]
      have hrest := (List.chain'_cons'.mp (List.chain'_cons'.mp h).2).2
      exact List.chain'_cons'.mpr ⟨fun y _ => h2 y, ih hrest⟩
  | case2 c d rest hcond ih =>
      intro h
      simp only [replLitN, if_neg hcond]
      refine List.chain'_cons'.mpr ⟨?_, ih (List.chain'_cons'.mp h).2⟩
      intro y hy
      rcases replLitN_head (d :: rest) with hh | hh
      · rw [hh] at hy
        exact (List.chain'_cons'.mp h).1 y hy
      · rw [hh] at hy
        simp only [Option.mem_def, Option.some.injEq] at hy
        rw [← hy]
        exact h1 c
  | case3 l hne =>
      intro h
      rw [show replLitN l = l by
        unfold replLitN
        rcases l with _ | ⟨c, _ | ⟨d, r⟩⟩ <;> first | rfl | exact absurd rfl (hne c d r)]
      exact h

/-- `replLitT` preserves chains whose relation tolerates an inserted TAB. -/
theorem replLitT_chain {R : Char → Char → Prop} (h1 : ∀ x, R x '\t')
    (h2 : ∀ y, R '\t' y) : ∀ {l : List Char}, List.Chain' R l →
    List.Chain' R (replLitT l) := by
  intro l
  induction l using replLitT.induct with
  | case1 c d rest hcond ih =>
      intro h
      simp only [replLitT, if_pos hcond]
      have hrest := (List.chain'_cons'.mp (List.chain'_cons'.mp h).2).2
      exact List.chain'_cons'.mpr ⟨fun y _ => h2 y, ih hrest⟩
  | case2 c d rest hcond ih =>
      intro h
      simp only [replLitT, if_neg hcond]
      refine List.chain'_cons'.mpr ⟨?_, ih (List.chain'_cons'.mp h).2⟩
      intro y hy
      rcases replLitT_head (d :: rest) with hh | hh
      · rw [hh] at hy
        exact (List.chain'_cons'.mp h).1 y hy
      · rw [hh] at hy
        simp only [Option.mem_def, Option.some.injEq] at hy
        rw [← hy]
        exact h1 c
  | case3 l hne =>
      intro h
      rw [show replLitT l = l by
        unfold replLitT
        rcases l with _ | ⟨c, _ | ⟨d, r⟩⟩ <;> first | rfl | exact absurd rfl (hne c d r)]
      exact h

/-- `replCRLF` preserves chains whose relation tolerates an inserted LF. -/
theorem replCRLF_chain {R : Char → Char → Prop} (h1 : ∀ x, R x '\n')
    (h2 : ∀ y, R '\n' y) : ∀ {l : List Char}, List.Chain' R l →
    List.Chain' R (replCRLF l) := by
  intro l
  induction l using replCRLF.induct with
  | case1 c d rest hcond ih =>
      intro h
      simp only [replCRLF, if_pos hcond]
      have hrest := (List.chain'_cons'.mp (List.chain'_cons'.mp h).2).2
      exact List.chain'_cons'.mpr ⟨fun y _ => h2 y, ih hrest⟩
  | case2 c d rest hcond ih =>
      intro h
      simp only [replCRLF, if_neg hcond]
      refine List.chain'_cons'.mpr ⟨?_, ih (List.chain'_cons'.mp h).2⟩
      intro y hy
      rcases replCRLF_head (d :: rest) with hh | hh
      · rw [hh] at hy
        exact (List.chain'_cons'.mp h).1 y hy
      · rw [hh] at hy
        simp only [Option.mem_def, Option.some.injEq] at hy
        rw [← hy]
        exact h1 c
  | case3 l hne =>
      intro h
      rw [show replCRLF l = l by
        unfold replCRLF
        rcases l with _ | ⟨c, _ | ⟨d, r⟩⟩ <;> first | rfl | exact absurd rfl (hne c d r)]
      exact h

/-- `replLitCRLF` preserves chains whose relation tolerates an inserted
LF. -/
theorem replLitCRLF_chain {R : Char → Char → Prop} (h1 : ∀ x, R x '\n')
    (h2 : ∀ y, R '\n' y) : ∀ {l : List Char}, List.Chain' R l →
    List.Chain' R (replLitCRLF l) := by
  intro l
  induction l using replLitCRLF.induct with
  | case1 c1 c2 c3 c4 rest hcond ih =>
      intro h
      simp only [replLitCRLF, if_pos hcond]
      have hrest := (List.chain'_cons'.mp (List.chain'_cons'.mp
        (List.chain'_cons'.mp (List.chain'_cons'.mp h).2).2).2).2
      exact List.chain'_cons'.mpr ⟨fun y _ => h2 y, ih hrest⟩
  | case2 c1 c2 c3 c4 rest hcond ih =>
      intro h
      simp only [replLitCRLF, if_neg hcond]
      refine List.chain'_cons'.mpr ⟨?_, ih (List.chain'_cons'.mp h).2⟩
      intro y hy
      rcases replLitCRLF_head (c2 :: c3 :: c4 :: rest) with hh | hh
      · rw [hh] at hy
        exact (List.chain'_cons'.mp h).1 y hy
      · rw [hh] at hy
        simp only [Option.mem_def, Option.some.injEq] at hy
        rw [← hy]
        exact h1 c1
  | case3 l hne =>
      intro h
      rw [show replLitCRLF l = l by
        unfold replLitCRLF
        rcases l with _ | ⟨c1, _ | ⟨c2, _ | ⟨c3, _ | ⟨c4, r⟩⟩⟩⟩ <;>
          first | rfl | exact absurd rfl (hne c1 c2 c3 c4 r)]
      exact h

/-- After `replLitN` no literal backslash-`n` pair remains. -/
theorem replLitN_intro (l : List Char) : noPair '\\' 'n' (replLitN l) := by
  induction l using replLitN.induct with
  | case1 c d rest hcond ih =>
      simp only [replLitN, if_pos hcond]
      exact List.chain'_cons'.mpr ⟨fun y _ => by simp, ih⟩
  | case2 c d rest hcond ih =>
      simp only [replLitN, if_neg hcond]
      refine List.chain'_cons'.mpr ⟨?_, ih⟩
      intro y hy
      rcases replLitN_head (d :: rest) with hh | hh
      · rw [hh] at hy
        simp only [List.head?_cons, Option.mem_def, Option.some.injEq] at hy
        rw [← hy]
        exact hcond
      · rw [hh] at hy
        simp only [Option.mem_def, Option.some.injEq] at hy
        rw [← hy]
        simp
  | case3 l hne =>
      rw [show replLitN l = l by
        unfold replLitN
        rcases l with _ | ⟨c, _ | ⟨d, r⟩⟩ <;> first | rfl | exact absurd rfl (hne c d r)]
      rcases l with _ | ⟨c, _ | ⟨d, r⟩⟩
      · exact List.chain'_nil
      · exact List.chain'_singleton c
      · exact absurd rfl (hne c d r)

/-- After `replLitT` no literal backslash-`t` pair remains. -/
theorem replLitT_intro (l : List Char) : noPair '\\' 't' (replLitT l) := by
  induction l using replLitT.induct with
  | case1 c d rest hcond ih =>
      simp only [replLitT, if_pos hcond]
      exact List.chain'_cons'.mpr ⟨fun y _ => by simp, ih⟩
  | case2 c d rest hcond ih =>
      simp only [replLitT, if_neg hcond]
      refine List.chain'_cons'.mpr ⟨?_, ih⟩
      intro y hy
      rcases replLitT_head (d :: rest) with hh | hh
      · rw [hh] at hy
        simp only [List.head?_cons, Option.mem_def, Option.some.injEq] at hy
        rw [← hy]
        exact hcond
      · rw [hh] at hy
        simp only [Option.mem_def, Option.some.injEq] at hy
        rw [← hy]
        simp
  | case3 l hne =>
      rw [show replLitT l = l by
        unfold replLitT
        rcases l with _ | ⟨c, _ | ⟨d, r⟩⟩ <;> first | rfl | exact absurd rfl (hne c d r)]
      rcases l with _ | ⟨c, _ | ⟨d, r⟩⟩
      · exact List.chain'_nil
      · exact List.chain'_singleton c
      · exact absurd rfl (hne c d r)

/-- `replLitCRLF` is the identity on backards-`n`-pair-free strings (the
pattern contains the pair as characters 3–4). -/
theorem replLitCRLF_id {l : List Char} (h : noPair '\\' 'n' l) :
    replLitCRLF l = l := by
  induction l using replLitCRLF.induct with
  | case1 c1 c2 c3 c4 rest hcond ih =>
      obtain ⟨_, _, h3, h4⟩ := hcond
      have hpair := (List.chain'_cons'.mp (List.chain'_cons'.mp
        (List.chain'_cons'.mp h).2).2).1 c4 (by simp)
      exact absurd ⟨h3, h4⟩ hpair
  | case2 c1 c2 c3 c4 rest hcond ih =>
      simp only [replLitCRLF, if_neg hcond]
      rw [ih (List.chain'_cons'.mp h).2]
  | case3 l hne =>
      unfold replLitCRLF
      rcases l with _ | ⟨c1, _ | ⟨c2, _ | ⟨c3, _ | ⟨c4, r⟩⟩⟩⟩ <;>
        first | rfl | exact absurd rfl (hne c1 c2 c3 c4 r)

/-- `replLitN` is the identity on backslash-`n`-pair-free strings. -/
theorem replLitN_id {l : List Char} (h : noPair '\\' 'n' l) :
    replLitN l = l := by
  induction l using replLitN.induct with
  | case1 c d rest hcond ih =>
      exact absurd hcond ((List.chain'_cons'.mp h).1 d (by simp))
  | case2 c d rest hcond ih =>
      simp only [replLitN, if_neg hcond]
      rw [ih (List.chain'_cons'.mp h).2]
  | case3 l hne =>
      unfold replLitN
      rcases l with _ | ⟨c, _ | ⟨d, r⟩⟩ <;> first | rfl | exact absurd rfl (hne c d r)

/-- `replLitT` is the identity on backslash-`t`-pair-free strings. -/
theorem replLitT_id {l : List Char} (h : noPair '\\' 't' l) :
    replLitT l = l := by
  induction l using replLitT.induct with
  | case1 c d rest hcond ih =>
      exact absurd hcond ((List.chain'_cons'.mp h).1 d (by simp))
  | case2 c d rest hcond ih =>
      simp only [replLitT, if_neg hcond]
      rw [ih (List.chain'_cons'.mp h).2]
  | case3 l hne =>
      unfold replLitT
      rcases l with _ | ⟨c, _ | ⟨d, r⟩⟩ <;> first | rfl | exact absurd rfl (hne c d r)

/-- `replCRLF` is the identity on CR-free strings. -/
theorem replCRLF_id {l : List Char} (h : '\r' ∉ l) : replCRLF l = l := by
  induction l using replCRLF.induct with
  | case1 c d rest hcond ih =>
      obtain ⟨rfl, rfl⟩ := hcond
      exact absurd (List.mem_cons_self _ _) h
  | case2 c d rest hcond ih =>
      simp only [replCRLF, if_neg hcond]
      rw [ih fun hm => h (List.mem_cons_of_mem c hm)]
  | case3 l hne =>
      unfold replCRLF
      rcases l with _ | ⟨c, _ | ⟨d, r⟩⟩ <;> first | rfl | exact absurd rfl (hne c d r)

/-- `replCR` is the identity on CR-free strings. -/
theorem replCR_id {l : List Char} (h : '\r' ∉ l) : replCR l = l := by
  induction l with
  | nil => rfl
  | cons c rest ih =>
      have hc : ¬ c = '\r' := fun hc => h (hc ▸ List.mem_cons_self c rest)
      simp only [replCR, if_neg hc]
      rw [ih fun hm => h (List.mem_cons_of_mem c hm)]

/-- `replTab` is the identity on TAB-free strings. -/
theorem replTab_id {l : List Char} (h : '\t' ∉ l) : replTab l = l := by
  induction l with
  | nil => rfl
  | cons c rest ih =>
      have hc : ¬ c = '\t' := fun hc => h (hc ▸ List.mem_cons_self c rest)
      simp only [replTab, if_neg hc]
      rw [ih fun hm => h (List.mem_cons_of_mem c hm)]

/-- `replCR` leaves no CR. -/
theorem replCR_no_cr (l : List Char) : '\r' ∉ replCR l := by
  induction l with
  | nil => simp [replCR]
  | cons c rest ih =>
      by_cases hc : c = '\r'
      · simp only [replCR, if_pos hc, List.mem_cons]
        push_neg
        exact ⟨by decide, ih⟩
      · simp only [replCR, if_neg hc, List.mem_cons]
        push_neg
        exact ⟨fun he => hc he.symm, ih⟩

/-- `replTab` leaves no TAB. -/
theorem replTab_no_tab (l : List Char) : '\t' ∉ replTab l := by
  induction l with
  | nil => simp [replTab]
  | cons c rest ih =>
      by_cases hc : c = '\t'
      · simp only [replTab, if_pos hc, List.mem_cons]
        push_neg
        exact ⟨by decide, by decide, by decide, ih⟩
      · simp only [replTab, if_neg hc, List.mem_cons]
        push_neg
        exact ⟨fun he => hc he.symm, ih⟩

/-- Characters of `replTab` come from the input or the inserted
separator. -/
theorem mem_replTab {a : Char} {l : List Char} (h : a ∈ replTab l) :
    a ∈ l ∨ a = ' ' ∨ a = '|' := by
  induction l with
  | nil => simp [replTab] at h
  | cons c rest ih =>
      by_cases hc : c = '\t'
      · simp only [replTab, if_pos hc, List.mem_cons] at h
        rcases h with h | h | h | h
        · right; left; exact h
        · right; right; exact h
        · right; left; exact h
        · rcases ih h with h' | h'
          · exact Or.inl (List.mem_cons_of_mem c h')
          · exact Or.inr h'
      · simp only [replTab, if_neg hc, List.mem_cons] at h
        rcases h with h | h
        · exact Or.inl (h ▸ List.mem_cons_self c rest)
        · rcases ih h with h' | h'
          · exact Or.inl (List.mem_cons_of_mem c h')
          · exact Or.inr h'

/-- The lazy close-quote search decomposes its input. -/
theorem findClose_decomp : ∀ {l g t : List Char},
    findClose l = some (g, t) → l = g ++ '"' :: t := by
  intro l
  induction l with
  | nil => intro g t h; cases h
  | cons c rest ih =>
      intro g t h
      unfold findClose at h
      split at h
      · next hc =>
          injection h with h'
          injection h' with h1 h2
          rw [← h1, ← h2]
          simp [hc.1]
      · rcases hfc : findClose rest with _ | ⟨g', t'⟩
        · rw [hfc] at h; cases h
        · rw [hfc] at h
          injection h with h'
          injection h' with h1 h2
          rw [← h1, ← h2]
          rw [ih hfc]
          rfl

/-- Characters of `stripWrapper` come from the input. -/
theorem mem_stripWrapper {a : Char} {l : List Char}
    (h : a ∈ stripWrapper l) : a ∈ l := by
  unfold stripWrapper at h
  split at h
  · next rest hd =>
      split at h
      · next g t hfc =>
          have hrest : rest = g ++ '"' :: t := findClose_decomp hfc
          have ha : a ∈ l.dropWhile jsWs := by
            rw [hd, hrest]
            exact List.mem_cons_of_mem _ (List.mem_append_left _ h)
          exact (List.dropWhile_suffix jsWs).subset ha
      · exact h
  · exact h

/-- `stripWrapper` preserves chains. -/
theorem chain_stripWrapper {R : Char → Char → Prop} {l : List Char}
    (h : List.Chain' R l) : List.Chain' R (stripWrapper l) := by
  unfold stripWrapper
  split
  · next rest hd =>
      split
      · next g t hfc =>
          have hrest : rest = g ++ '"' :: t := findClose_decomp hfc
          have hdw : List.Chain' R (l.dropWhile jsWs) :=
            chainSuffix h (List.dropWhile_suffix jsWs)
          rw [hd, hrest] at hdw
          exact (List.chain'_append.mp (List.chain'_cons'.mp hdw).2).1
      · exact h
  · exact h

/-- Head of the collapse worker in normal mode: unchanged or the replacement
space. -/
theorem collapseWsGo_false_head (l : List Char) :
    (collapseWsGo false l).head? = l.head? ∨
    (collapseWsGo false l).head? = some ' ' := by
  cases l with
  | nil => left; rfl
  | cons c rest =>
      by_cases hc : jsWs c
      · cases rest with
        | nil => left; simp [collapseWsGo, hc]
        | cons d tail =>
            by_cases hd : jsWs d
            · right; simp [collapseWsGo, hc, hd]
            · left; simp [collapseWsGo, hc, hd]
      · left; simp [collapseWsGo, hc]

/-- In skip mode the produced head is never whitespace. -/
theorem collapseWsGo_true_head (l : List Char) :
    ∀ a ∈ (collapseWsGo true l).head?, jsWs a = false := by
  induction l with
  | nil => simp [collapseWsGo]
  | cons c rest ih =>
      by_cases hc : jsWs c
      · simpa [collapseWsGo, hc] using ih
      · simp only [collapseWsGo, if_neg hc, List.head?_cons, Option.mem_def,
          Option.some.injEq]
        intro a ha
        rw [← ha]
        simpa using hc

/-- One-step unfolding: skip mode over whitespace. -/
theorem collapseWsGo_eq_tw {c : Char} (l : List Char) (hc : jsWs c = true) :
    collapseWsGo true (c :: l) = collapseWsGo true l := by
  simp [collapseWsGo, hc]

/-- One-step unfolding: skip mode over non-whitespace. -/
theorem collapseWsGo_eq_tn {c : Char} (l : List Char) (hc : ¬ jsWs c = true) :
    collapseWsGo true (c :: l) = c :: collapseWsGo false l := by
  simp [collapseWsGo, hc]

/-- One-step unfolding: normal mode over non-whitespace. -/
theorem collapseWsGo_eq_fn {c : Char} (l : List Char) (hc : ¬ jsWs c = true) :
    collapseWsGo false (c :: l) = c :: collapseWsGo false l := by
  cases l <;> simp [collapseWsGo, hc]

/-- One-step unfolding: normal mode, trailing whitespace. -/
theorem collapseWsGo_eq_fw1 {c : Char} (hc : jsWs c = true) :
    collapseWsGo false [c] = [c] := by
  simp [collapseWsGo, hc]

/-- One-step unfolding: normal mode over a whitespace pair. -/
theorem collapseWsGo_eq_fww {c d : Char} (l : List Char) (hc : jsWs c = true)
    (hd : jsWs d = true) :
    collapseWsGo false (c :: d :: l) = ' ' :: collapseWsGo true (d :: l) := by
  rw [collapseWsGo_eq_tw l hd]
  simp [collapseWsGo, hc, hd]

/-- One-step unfolding: normal mode, whitespace then non-whitespace. -/
theorem collapseWsGo_eq_fwn {c d : Char} (l : List Char) (hc : jsWs c = true)
    (hd : ¬ jsWs d = true) :
    collapseWsGo false (c :: d :: l) = c :: collapseWsGo false (d :: l) := by
  rw [collapseWsGo_eq_fn l hd]
  cases l <;> simp [collapseWsGo, hc, hd]

/-- Characters of the collapse worker come from the input or are the
replacement space. -/
theorem mem_collapseWsGo {a : Char} :
    ∀ {b : Bool} {l : List Char}, a ∈ collapseWsGo b l → a ∈ l ∨ a = ' ' := by
  intro b l
  induction b, l using collapseWsGo.induct with
  | case1 b => intro h; simp [collapseWsGo] at h
  | case2 c rest hc ih =>
      intro h
      rw [collapseWsGo_eq_tw rest hc] at h
      rcases ih h with h' | h'
      · exact Or.inl (List.mem_cons_of_mem c h')
      · exact Or.inr h'
  | case3 c rest hc ih =>
      intro h
      rw [collapseWsGo_eq_tn rest hc] at h
      rcases List.mem_cons.mp h with h | h
      · exact Or.inl (h ▸ List.mem_cons_self c rest)
      · rcases ih h with h' | h'
        · exact Or.inl (List.mem_cons_of_mem c h')
        · exact Or.inr h'
  | case4 c hc =>
      intro h
      rw [collapseWsGo_eq_fw1 hc] at h
      exact Or.inl h
  | case5 c hc d tail hd ih =>
      intro h
      rw [collapseWsGo_eq_fww tail hc hd] at h
      rcases List.mem_cons.mp h with h | h
      · exact Or.inr h
      · rcases ih h with h' | h'
        · exact Or.inl (List.mem_cons_of_mem c h')
        · exact Or.inr h'
  | case6 c hc d tail hd ih =>
      intro h
      rw [collapseWsGo_eq_fwn tail hc hd] at h
      rcases List.mem_cons.mp h with h | h
      · exact Or.inl (h ▸ List.mem_cons_self c _)
      · rcases ih h with h' | h'
        · exact Or.inl (List.mem_cons_of_mem c h')
        · exact Or.inr h'
  | case7 c rest hc ih =>
      intro h
      rw [collapseWsGo_eq_fn rest hc] at h
      rcases List.mem_cons.mp h with h | h
      · exact Or.inl (h ▸ List.mem_cons_self c rest)
      · rcases ih h with h' | h'
        · exact Or.inl (List.mem_cons_of_mem c h')
        · exact Or.inr h'

/-- The collapse worker preserves chains tolerating an inserted space. -/
theorem chain_collapseWsGo {R : Char → Char → Prop} (h1 : ∀ x, R x ' ')
    (h2 : ∀ y, R ' ' y) :
    ∀ {b : Bool} {l : List Char}, List.Chain' R l →
      List.Chain' R (collapseWsGo b l) := by
  intro b l
  induction b, l using collapseWsGo.induct with
  | case1 b => intro _; simp [collapseWsGo]
  | case2 c rest hc ih =>
      intro h
      rw [collapseWsGo_eq_tw rest hc]
      exact ih (List.chain'_cons'.mp h).2
  | case3 c rest hc ih =>
      intro h
      rw [collapseWsGo_eq_tn rest hc]
      refine List.chain'_cons'.mpr ⟨?_, ih (List.chain'_cons'.mp h).2⟩
      intro y hy
      rcases collapseWsGo_false_head rest with hh | hh
      · rw [hh] at hy
        exact (List.chain'_cons'.mp h).1 y hy
      · rw [hh] at hy
        simp only [Option.mem_def, Option.some.injEq] at hy
        rw [← hy]
        exact h1 c
  | case4 c hc =>
      intro h
      rw [collapseWsGo_eq_fw1 hc]
      exact h
  | case5 c hc d tail hd ih =>
      intro h
      rw [collapseWsGo_eq_fww tail hc hd]
      exact List.chain'_cons'.mpr ⟨fun y _ => h2 y, ih (List.chain'_cons'.mp h).2⟩
  | case6 c hc d tail hd ih =>
      intro h
      rw [collapseWsGo_eq_fwn tail hc hd]
      refine List.chain'_cons'.mpr ⟨?_, ih (List.chain'_cons'.mp h).2⟩
      intro y hy
      rcases collapseWsGo_false_head (d :: tail) with hh | hh
      · rw [hh] at hy
        exact (List.chain'_cons'.mp h).1 y hy
      · rw [hh] at hy
        simp only [Option.mem_def, Option.some.injEq] at hy
        rw [← hy]
        exact h1 c
  | case7 c rest hc ih =>
      intro h
      rw [collapseWsGo_eq_fn rest hc]
      refine List.chain'_cons'.mpr ⟨?_, ih (List.chain'_cons'.mp h).2⟩
      intro y hy
      rcases collapseWsGo_false_head rest with hh | hh
      · rw [hh] at hy
        exact (List.chain'_cons'.mp h).1 y hy
      · rw [hh] at hy
        simp only [Option.mem_def, Option.some.injEq] at hy
        rw [← hy]
        exact h1 c

/-- The collapse worker leaves no adjacent whitespace pair. -/
theorem collapseWsGo_ww :
    ∀ (b : Bool) (l : List Char),
      List.Chain' (fun a b => ¬ (jsWs a = true ∧ jsWs b = true))
        (collapseWsGo b l) := by
  intro b l
  induction b, l using collapseWsGo.induct with
  | case1 b => simp [collapseWsGo]
  | case2 c rest hc ih => rw [collapseWsGo_eq_tw rest hc]; exact ih
  | case3 c rest hc ih =>
      rw [collapseWsGo_eq_tn rest hc]
      exact List.chain'_cons'.mpr ⟨fun y _ hp => hc hp.1, ih⟩
  | case4 c hc =>
      rw [collapseWsGo_eq_fw1 hc]
      exact List.chain'_singleton c
  | case5 c hc d tail hd ih =>
      rw [collapseWsGo_eq_fww tail hc hd]
      refine List.chain'_cons'.mpr ⟨?_, ih⟩
      intro y hy hp
      have := collapseWsGo_true_head (d :: tail) y hy
      rw [hp.2] at this
      cases this
  | case6 c hc d tail hd ih =>
      rw [collapseWsGo_eq_fwn tail hc hd]
      refine List.chain'_cons'.mpr ⟨?_, ih⟩
      intro y hy hp
      have hhd : (collapseWsGo false (d :: tail)).head? = some d := by
        rw [collapseWsGo_eq_fn tail hd]; rfl
      rw [hhd] at hy
      simp only [Option.mem_def, Option.some.injEq] at hy
      rw [hy] at hd
      exact hd hp.2
  | case7 c rest hc ih =>
      rw [collapseWsGo_eq_fn rest hc]
      exact List.chain'_cons'.mpr ⟨fun y _ hp => hc hp.1, ih⟩

/-- The collapse worker is the identity on strings with no adjacent
whitespace pair. -/
theorem collapseWsGo_id :
    ∀ {l : List Char},
      List.Chain' (fun a b => ¬ (jsWs a = true ∧ jsWs b = true)) l →
      collapseWsGo false l = l := by
  intro l
  induction l with
  | nil => intro _; rfl
  | cons c rest ih =>
      intro h
      by_cases hc : jsWs c
      · cases rest with
        | nil => exact collapseWsGo_eq_fw1 hc
        | cons d tail =>
            have hd : ¬ jsWs d = true := fun hd =>
              (List.chain'_cons'.mp h).1 d (by simp) ⟨hc, hd⟩
            rw [collapseWsGo_eq_fwn tail hc hd,
              ih (List.chain'_cons'.mp h).2]
      · rw [collapseWsGo_eq_fn rest hc, ih (List.chain'_cons'.mp h).2]

/-- `splitNl` never returns the empty list of pieces. -/
theorem splitNl_ne_nil (s : List Char) : splitNl s ≠ [] := by
  cases s with
  | nil => simp [splitNl]
  | cons c rest =>
      by_cases hc : c = '\n'
      · simp [splitNl, hc]
      · simp only [splitNl, if_neg hc]
        rcases splitNl rest with _ | ⟨l, ls⟩ <;> simp

/-- Characters of a split piece come from the split input. -/
theorem mem_splitNl {a : Char} :
    ∀ {s : List Char} {p : List Char}, p ∈ splitNl s → a ∈ p → a ∈ s := by
  intro s
  induction s with
  | nil =>
      intro p hp ha
      simp only [splitNl, List.mem_singleton] at hp
      rw [hp] at ha
      cases ha
  | cons c rest ih =>
      intro p hp ha
      by_cases hc : c = '\n'
      · simp only [splitNl, if_pos hc, List.mem_cons] at hp
        rcases hp with hp | hp
        · rw [hp] at ha; cases ha
        · exact List.mem_cons_of_mem c (ih hp ha)
      · simp only [splitNl, if_neg hc] at hp
        rcases hsp : splitNl rest with _ | ⟨l, ls⟩
        · rw [hsp] at hp
          simp only [List.mem_singleton] at hp
          rw [hp] at ha
          simp only [List.mem_singleton] at ha
          exact ha ▸ List.mem_cons_self c rest
        · rw [hsp] at hp
          rcases List.mem_cons.mp hp with hp | hp
          · rw [hp] at ha
            rcases List.mem_cons.mp ha with ha | ha
            · exact ha ▸ List.mem_cons_self c rest
            · exact List.mem_cons_of_mem c
                (ih (hsp ▸ List.mem_cons_self l ls) ha)
          · exact List.mem_cons_of_mem c
              (ih (hsp ▸ List.mem_cons_of_mem l hp) ha)

/-- No piece produced by `splitNl` contains a newline. -/
theorem not_nl_splitNl :
    ∀ {s : List Char} {p : List Char}, p ∈ splitNl s → '\n' ∉ p := by
  intro s
  induction s with
  | nil =>
      intro p hp
      simp only [splitNl, List.mem_singleton] at hp
      rw [hp]
      simp
  | cons c rest ih =>
      intro p hp
      by_cases hc : c = '\n'
      · simp only [splitNl, if_pos hc, List.mem_cons] at hp
        rcases hp with hp | hp
        · rw [hp]; simp
        · exact ih hp
      · simp only [splitNl, if_neg hc] at hp
        rcases hsp : splitNl rest with _ | ⟨l, ls⟩
        · rw [hsp] at hp
          simp only [List.mem_singleton] at hp
          rw [hp]
          simp only [List.mem_singleton]
          exact fun h => hc h.symm
        · rw [hsp] at hp
          rcases List.mem_cons.mp hp with hp | hp
          · rw [hp]
            intro hmem
            rcases List.mem_cons.mp hmem with hmem | hmem
            · exact hc hmem.symm
            · exact ih (hsp ▸ List.mem_cons_self l ls) hmem
          · exact ih (hsp ▸ List.mem_cons_of_mem l hp)

/-- The head of the first split piece is the head of the input. -/
theorem firstPiece_head {s l : List Char} {ls : List (List Char)}
    (h : splitNl s = l :: ls) : ∀ a ∈ l.head?, s.head? = some a := by
  intro a ha
  cases s with
  | nil =>
      simp only [splitNl, List.cons.injEq] at h
      rw [← h.1] at ha
      cases ha
  | cons c rest =>
      by_cases hc : c = '\n'
      · simp only [splitNl, if_pos hc, List.cons.injEq] at h
        rw [← h.1] at ha
        cases ha
      · simp only [splitNl, if_neg hc] at h
        rcases hsp : splitNl rest with _ | ⟨l', ls'⟩
        · rw [hsp] at h
          simp only [List.cons.injEq] at h
          rw [← h.1] at ha
          simp only [List.head?_cons, Option.mem_def, Option.some.injEq] at ha
          simp [ha]
        · rw [hsp] at h
          simp only [List.cons.injEq] at h
          rw [← h.1] at ha
          simp only [List.head?_cons, Option.mem_def, Option.some.injEq] at ha
          simp [ha]

/-- `splitNl` maps a chain to chains on every piece. -/
theorem chain_splitNl {R : Char → Char → Prop} :
    ∀ {s : List Char}, List.Chain' R s →
      ∀ {p : List Char}, p ∈ splitNl s → List.Chain' R p := by
  intro s
  induction s with
  | nil =>
      intro _ p hp
      simp only [splitNl, List.mem_singleton] at hp
      rw [hp]
      exact List.chain'_nil
  | cons c rest ih =>
      intro h p hp
      by_cases hc : c = '\n'
      · simp only [splitNl, if_pos hc, List.mem_cons] at hp
        rcases hp with hp | hp
        · rw [hp]; exact List.chain'_nil
        · exact ih (List.chain'_cons'.mp h).2 hp
      · simp only [splitNl, if_neg hc] at hp
        rcases hsp : splitNl rest with _ | ⟨l, ls⟩
        · rw [hsp] at hp
          simp only [List.mem_singleton] at hp
          rw [hp]
          exact List.chain'_singleton c
        · rw [hsp] at hp
          rcases List.mem_cons.mp hp with hp | hp
          · rw [hp]
            refine List.chain'_cons'.mpr ⟨?_,
              ih (List.chain'_cons'.mp h).2 (hsp ▸ List.mem_cons_self l ls)⟩
            intro y hy
            have hr := firstPiece_head hsp y hy
            exact (List.chain'_cons'.mp h).1 y hr
          · exact ih (List.chain'_cons'.mp h).2 (hsp ▸ List.mem_cons_of_mem l hp)

/-- A newline-free string splits into the single piece itself. -/
theorem splitNl_singleton :
    ∀ {p : List Char}, '\n' ∉ p → splitNl p = [p] := by
  intro p
  induction p with
  | nil => intro _; rfl
  | cons c rest ih =>
      intro h
      have hc : ¬ c = '\n' := fun hc => h (hc ▸ List.mem_cons_self c rest)
      simp only [splitNl, if_neg hc]
      rw [ih fun hm => h (List.mem_cons_of_mem c hm)]

/-- Splitting past a leading newline-free piece. -/
theorem splitNl_append :
    ∀ {p : List Char}, '\n' ∉ p →
      ∀ (r : List Char), splitNl (p ++ '\n' :: r) = p :: splitNl r := by
  intro p
  induction p with
  | nil => intro _ r; simp [splitNl]
  | cons c rest ih =>
      intro h r
      have hc : ¬ c = '\n' := fun hc => h (hc ▸ List.mem_cons_self c rest)
      simp only [List.cons_append, splitNl, if_neg hc, List.append_eq]
      rw [ih (fun hm => h (List.mem_cons_of_mem c hm)) r]

/-- `splitNl` is a left inverse of `joinNl` on nonempty lists of
newline-free pieces. -/
theorem splitNl_joinNl :
    ∀ {ls : List (List Char)}, ls ≠ [] → (∀ p ∈ ls, '\n' ∉ p) →
      splitNl (joinNl ls) = ls := by
  intro ls
  induction ls with
  | nil => intro h _; cases h rfl
  | cons p ls' ih =>
      intro _ h
      cases ls' with
      | nil => exact splitNl_singleton (h p (List.mem_cons_self p []))
      | cons q ls'' =>
          have hj : joinNl (p :: q :: ls'') = p ++ '\n' :: joinNl (q :: ls'') :=
            rfl
          rw [hj, splitNl_append (h p (List.mem_cons_self p _)) _,
            ih (by simp) fun r hr => h r (List.mem_cons_of_mem p hr)]

/-- Characters of `joinNl` come from a piece or are the inserted newline. -/
theorem mem_joinNl {a : Char} :
    ∀ {ls : List (List Char)}, a ∈ joinNl ls →
      (∃ p ∈ ls, a ∈ p) ∨ a = '\n' := by
  intro ls
  induction ls with
  | nil => intro h; cases h
  | cons p ls' ih =>
      intro h
      cases ls' with
      | nil => exact Or.inl ⟨p, List.mem_cons_self p [], h⟩
      | cons q ls'' =>
          have hj : joinNl (p :: q :: ls'') = p ++ '\n' :: joinNl (q :: ls'') :=
            rfl
          rw [hj] at h
          rcases List.mem_append.mp h with h | h
          · exact Or.inl ⟨p, List.mem_cons_self p _, h⟩
          · rcases List.mem_cons.mp h with h | h
            · exact Or.inr h
            · rcases ih h with ⟨r, hr, ha⟩ | h
              · exact Or.inl ⟨r, List.mem_cons_of_mem p hr, ha⟩
              · exact Or.inr h

/-- `joinNl` of chained pieces is a chain, when the relation tolerates the
inserted newline on both sides. -/
theorem chain_joinNl {R : Char → Char → Prop} (h1 : ∀ x, R x '\n')
    (h2 : ∀ y, R '\n' y) :
    ∀ {ls : List (List Char)}, (∀ p ∈ ls, List.Chain' R p) →
      List.Chain' R (joinNl ls) := by
  intro ls
  induction ls with
  | nil => intro _; exact List.chain'_nil
  | cons p ls' ih =>
      intro h
      cases ls' with
      | nil => exact h p (List.mem_cons_self p [])
      | cons q ls'' =>
          have hj : joinNl (p :: q :: ls'') = p ++ '\n' :: joinNl (q :: ls'') :=
            rfl
          rw [hj]
          refine List.chain'_append.mpr
            ⟨h p (List.mem_cons_self p _),
             List.chain'_cons'.mpr
               ⟨fun y _ => h2 y,
                ih fun r hr => h r (List.mem_cons_of_mem p hr)⟩,
             ?_⟩
          intro x _ y hy
          simp only [List.head?_cons, Option.mem_def, Option.some.injEq] at hy
          rw [← hy]
          exact h1 x

/-- Shape of a clean line: a trimmed, collapsed split piece, nonempty. -/
theorem cleanLines_shape {s l : List Char} (h : l ∈ cleanLines s) :
    ∃ p ∈ splitNl s, l = trimStr (collapseWs p) ∧ l ≠ [] := by
  unfold cleanLines at h
  rcases List.mem_filter.mp h with ⟨hm, hne⟩
  rcases List.mem_map.mp hm with ⟨p, hp, hl⟩
  exact ⟨p, hp, hl.symm, by simpa using hne⟩

/-- Clean lines contain no newline. -/
theorem cleanLines_no_nl {s l : List Char} (h : l ∈ cleanLines s) :
    '\n' ∉ l := by
  rcases cleanLines_shape h with ⟨p, hp, rfl, _⟩
  intro hm
  have h1 := trimStr_mem (collapseWs p) '\n' hm
  rcases mem_collapseWsGo h1 with h2 | h2
  · exact not_nl_splitNl hp h2
  · exact absurd h2 (by decide)

/-- A character absent from the input and distinct from the replacement
space does not occur in a clean line. -/
theorem cleanLines_no_char {s l : List Char} {c : Char} (hc1 : c ∉ s)
    (hc2 : ¬ c = ' ') (h : l ∈ cleanLines s) : c ∉ l := by
  rcases cleanLines_shape h with ⟨p, hp, rfl, _⟩
  intro hm
  have h1 := trimStr_mem (collapseWs p) c hm
  rcases mem_collapseWsGo h1 with h2 | h2
  · exact hc1 (mem_splitNl hp h2)
  · exact hc2 h2

/-- A chain on the input that tolerates the replacement space restricts to
every clean line. -/
theorem cleanLines_chain {R : Char → Char → Prop} {s : List Char}
    (hs : List.Chain' R s) (h1 : ∀ x, R x ' ') (h2 : ∀ y, R ' ' y)
    {l : List Char} (h : l ∈ cleanLines s) : List.Chain' R l := by
  rcases cleanLines_shape h with ⟨p, hp, rfl, _⟩
  exact trimStr_chain (chain_collapseWsGo h1 h2 (chain_splitNl hs hp))

/-- Every clean line is a fixed point of collapse-then-trim. -/
theorem cleanLines_fix {s l : List Char} (h : l ∈ cleanLines s) :
    trimStr (collapseWs l) = l := by
  rcases cleanLines_shape h with ⟨p, hp, rfl, _⟩
  have hww : List.Chain' (fun a b => ¬ (jsWs a = true ∧ jsWs b = true))
      (trimStr (collapseWs p)) := trimStr_chain (collapseWsGo_ww false p)
  rw [show collapseWs (trimStr (collapseWs p)) = trimStr (collapseWs p) from
    collapseWsGo_id hww]
  exact trimStr_idem _

/-- `cleanLines` undoes `joinNl` on lists of nonempty, newline-free lines
that are already collapse-trim fixed points. -/
theorem cleanLines_joinNl {ls : List (List Char)}
    (h1 : ∀ l ∈ ls, '\n' ∉ l) (h2 : ∀ l ∈ ls, trimStr (collapseWs l) = l)
    (h3 : ∀ l ∈ ls, l ≠ []) : cleanLines (joinNl ls) = ls := by
  have hmap : ∀ (ms : List (List Char)),
      (∀ l ∈ ms, trimStr (collapseWs l) = l) →
      List.map (fun l => trimStr (collapseWs l)) ms = ms := by
    intro ms
    induction ms with
    | nil => intro _; rfl
    | cons a as iha =>
        intro hh
        simp only [List.map_cons]
        rw [hh a (by simp), iha fun b hb => hh b (List.mem_cons_of_mem a hb)]
  cases ls with
  | nil => rfl
  | cons p ls' =>
      unfold cleanLines
      rw [splitNl_joinNl (by simp) h1, hmap _ h2]
      exact List.filter_eq_self.mpr fun a ha => by simpa using h3 a ha

/-- On a string free of the pass-one artefacts and fixed by the wrapper
strip, `cleanOcrText` reduces to split/clean/join. -/
theorem cleanOcrText_eq_of_fixpoints {z : List Char} (h1 : noPair '\\' 'n' z)
    (h2 : noPair '\\' 't' z) (h3 : '\r' ∉ z) (h4 : '\t' ∉ z)
    (h5 : stripWrapper z = z) : cleanOcrText z = joinNl (cleanLines z) := by
  unfold cleanOcrText
  rw [replLitCRLF_id h1, replLitN_id h1, replLitT_id h2, replCRLF_id h3,
    replCR_id h3, h5, replTab_id h4]

/-- A clean line is nonempty (the empty-line filter). -/
theorem cleanLines_ne_nil {s l : List Char} (h : l ∈ cleanLines s) :
    l ≠ [] := by
  rcases cleanLines_shape h with ⟨p, _, _, hne⟩
  exact hne

/-- Every `cleanOcrText` output satisfies the four stability invariants of
the pass-one substitutions: no literal `\n` pair, no literal `\t` pair, no
carriage return and no tab character. -/
theorem cleanOcrText_invariants (x : List Char) :
    noPair '\\' 'n' (cleanOcrText x) ∧ noPair '\\' 't' (cleanOcrText x) ∧
    '\r' ∉ cleanOcrText x ∧ '\t' ∉ cleanOcrText x := by
  have hs4n : noPair '\\' 'n' (replTab (stripWrapper (replCR (replCRLF
      (replLitT (replLitN (replLitCRLF x))))))) :=
    replTab_chain (fun z hp => absurd hp.2 (by decide))
      (fun z hp => absurd hp.1 (by decide))
      (chain_stripWrapper (replCR_chain (fun z hp => absurd hp.2 (by decide))
        (fun z hp => absurd hp.1 (by decide))
        (replCRLF_chain (fun z hp => absurd hp.2 (by decide))
          (fun z hp => absurd hp.1 (by decide))
          (replLitT_chain (fun z hp => absurd hp.2 (by decide))
            (fun z hp => absurd hp.1 (by decide))
            (replLitN_intro _)))))
  have hs4t : noPair '\\' 't' (replTab (stripWrapper (replCR (replCRLF
      (replLitT (replLitN (replLitCRLF x))))))) :=
    replTab_chain (fun z hp => absurd hp.2 (by decide))
      (fun z hp => absurd hp.1 (by decide))
      (chain_stripWrapper (replCR_chain (fun z hp => absurd hp.2 (by decide))
        (fun z hp => absurd hp.1 (by decide))
        (replCRLF_chain (fun z hp => absurd hp.2 (by decide))
          (fun z hp => absurd hp.1 (by decide))
          (replLitT_intro _))))
  have hs4r : '\r' ∉ replTab (stripWrapper (replCR (replCRLF
      (replLitT (replLitN (replLitCRLF x)))))) := by
    intro hm
    rcases mem_replTab hm with hm | hm | hm
    · exact replCR_no_cr _ (mem_stripWrapper hm)
    · exact absurd hm (by decide)
    · exact absurd hm (by decide)
  have hs4tab : '\t' ∉ replTab (stripWrapper (replCR (replCRLF
      (replLitT (replLitN (replLitCRLF x)))))) := replTab_no_tab _
  refine ⟨?_, ?_, ?_, ?_⟩
  · exact chain_joinNl (fun z hp => absurd hp.2 (by decide))
      (fun z hp => absurd hp.1 (by decide))
      fun p hp => cleanLines_chain hs4n
        (fun z hq => absurd hq.2 (by decide))
        (fun z hq => absurd hq.1 (by decide)) hp
  · exact chain_joinNl (fun z hp => absurd hp.2 (by decide))
      (fun z hp => absurd hp.1 (by decide))
      fun p hp => cleanLines_chain hs4t
        (fun z hq => absurd hq.2 (by decide))
        (fun z hq => absurd hq.1 (by decide)) hp
  · intro hm
    rcases mem_joinNl hm with ⟨p, hp, hmp⟩ | hm
    · exact cleanLines_no_char hs4r (by decide) hp hmp
    · exact absurd hm (by decide)
  · intro hm
    rcases mem_joinNl hm with ⟨p, hp, hmp⟩ | hm
    · exact cleanLines_no_char hs4tab (by decide) hp hmp
    · exact absurd hm (by decide)

/-- C7 (counterexample part).  The claim "cleanOcrText is idempotent for
every input" is false: on the doubly-quoted input `""b""` the first
application strips one quote layer (the wrapper strip fires, with the lazy
close search matching the second quote and leaving a quote at each end after
trimming), and a second application strips another, so the two outputs
differ. -/
theorem cleanOcrText_not_idempotent :
    cleanOcrText (cleanOcrText ('"' :: '"' :: 'b' :: '"' :: '"' :: [])) ≠
      cleanOcrText ('"' :: '"' :: 'b' :: '"' :: '"' :: []) := by decide

/-- C7 (amended).  The text normalizer is idempotent on every input whose
first-pass output is left fixed by the quote-wrapper strip — in particular on
all outputs that do not both begin and end with a double quote: for such x,
`cleanOcrText (cleanOcrText x) = cleanOcrText x`.  (The unconditional
original claim is refuted by `cleanOcrText_not_idempotent`.) -/
theorem cleanOcrText_idempotent_of_unwrapped (x : List Char)
    (hw : stripWrapper (cleanOcrText x) = cleanOcrText x) :
    cleanOcrText (cleanOcrText x) = cleanOcrText x := by
  obtain ⟨h1, h2, h3, h4⟩ := cleanOcrText_invariants x
  rw [cleanOcrText_eq_of_fixpoints h1 h2 h3 h4 hw]
  have hlines : cleanLines (cleanOcrText x) = cleanLines (replTab
      (stripWrapper (replCR (replCRLF (replLitT (replLitN
        (replLitCRLF x))))))) :=
    cleanLines_joinNl (fun l hl => cleanLines_no_nl hl)
      (fun l hl => cleanLines_fix hl) (fun l hl => cleanLines_ne_nil hl)
  rw [hlines]
  rfl

/-- C7 witness: a concrete unwrapped input on which the amended idempotence
theorem applies. -/
theorem cleanOcrText_idempotent_of_unwrapped_witness :
    stripWrapper (cleanOcrText ('a' :: 'b' :: [])) =
        cleanOcrText ('a' :: 'b' :: []) ∧
      cleanOcrText (cleanOcrText ('a' :: 'b' :: [])) =
        cleanOcrText ('a' :: 'b' :: []) :=
  ⟨by decide, cleanOcrText_idempotent_of_unwrapped ('a' :: 'b' :: [])
    (by decide)⟩

